import Mathlib

/-!
# Verification of the elementary-watson translation core

A shallow embedding, in Lean, of the translation-resolution core of the
elementary-watson editor extension:

* `src/concepts/translation/service.js` — call-site scanning
  (`findTranslationCalls`), key lookup (`getTranslation`, `getNestedValue`,
  `processParaglideVariant`), cross-locale fallback (`searchKeyInAllLocales`)
  and result classification (`processTranslationCallsWithWarnings`);
* `src/concepts/locale/service.js` — active-locale resolution
  (`getCurrentLocale`, `loadInlangSettings`);
* `src/concepts/extraction/service.js` — locale-file writes
  (`setNestedValue`, `updateLocaleFile`, `addToLocaleFiles`);
* `src/concepts/extension/activator.js` — the per-document debounce scheduler
  (`debounceDocumentUpdate` and the save listener), modelled as a timed event
  trace semantics.

Strings are modelled as `List Char`; parsed JSON documents as the `JsValue`
tree below, with JavaScript dynamic semantics (truthiness, property access on
strings and arrays, own-key enumeration order) made explicit where the code
depends on them.  File-system reads are modelled as explicit `Option`-valued
inputs (`none` = missing/unreadable), and thrown exceptions as `none` results.
Prototype-chain properties of JavaScript objects (e.g. `toString`) are outside
the model: property access consults own properties only, which is the JSON
data model the code is written against.
-/

namespace ElementaryWatson

/-- The characters of the JavaScript `\s` class (also the set removed by
`String.prototype.trim`): ASCII whitespace plus the Unicode space
separators, line separators and the BOM. -/
def isJsSpace (c : Char) : Bool :=
  let n := c.toNat
  n == 9 || n == 10 || n == 11 || n == 12 || n == 13 || n == 32 ||
  n == 160 || n == 5760 || (decide (8192 ≤ n) && decide (n ≤ 8202)) ||
  n == 8232 || n == 8233 || n == 8239 || n == 8287 || n == 12288 || n == 65279

/-- JavaScript `\w` (word character), used for the `\b` boundary in the two
scanner patterns: ASCII letters, digits and underscore.  Note `$` is *not*
a word character for `\b` purposes. -/
def isWordChar (c : Char) : Bool :=
  c.isAlpha || c.isDigit || c == '_'

/-- First character of the identifier class `[a-zA-Z_$]` in the flat
call pattern. -/
def isIdentStart (c : Char) : Bool :=
  c.isAlpha || c == '_' || c == '$'

/-- Continuation character of the identifier class `[a-zA-Z0-9_$]`. -/
def isIdentChar (c : Char) : Bool :=
  isIdentStart c || c.isDigit

/-- A parsed JSON value, as produced by `JSON.parse` in
`TranslationRepository.loadTranslations`.  Object properties are kept in
insertion order (for `JSON.parse`, textual order of the document). -/
inductive JsValue where
  | str  : List Char → JsValue
  | num  : Int → JsValue
  | bool : Bool → JsValue
  | null : JsValue
  | arr  : List JsValue → JsValue
  | obj  : List (List Char × JsValue) → JsValue

/-- JavaScript truthiness of a value: `""`, `0`, `false` and `null` are
falsy; every object and array is truthy. -/
def jsTruthy : JsValue → Bool
  | .str s  => !s.isEmpty
  | .num n  => n != 0
  | .bool b => b
  | .null   => false
  | .arr _  => true
  | .obj _  => true

/-- `typeof v === 'object'`: objects, arrays and — a JavaScript quirk the
code inherits — `null`. -/
def jsTypeofObject : JsValue → Bool
  | .obj _ => true
  | .arr _ => true
  | .null  => true
  | _      => false

/-- Decode a canonical numeric property name (`"0"`, `"17"`, … with no
leading zeros), the form under which JavaScript exposes string characters
and array elements as properties. -/
def decodeCanonicalIndex (s : List Char) : Option Nat :=
  match s with
  | [] => none
  | ['0'] => some 0
  | c :: rest =>
    if c.isDigit && c != '0' && rest.all (·.isDigit) then
      some (s.foldl (fun a d => a * 10 + (d.toNat - 48)) 0)
    else none

/-- Property names that count as array indices for JavaScript's own-key
enumeration order: canonical numeric strings below `2^32 - 1`. -/
def isArrayIndexKey (k : List Char) : Bool :=
  match decodeCanonicalIndex k with
  | some n => decide (n < 4294967295)
  | none => false

/-- Numeric value of an array-index-like key, for ordering. -/
def indexKeyValue (k : List Char) : Nat :=
  (decodeCanonicalIndex k).getD 0

/-- Stable insertion into a list sorted ascending by `indexKeyValue`. -/
def insertByIndexValue (p : List Char × JsValue) :
    List (List Char × JsValue) → List (List Char × JsValue)
  | [] => [p]
  | q :: rest =>
    if indexKeyValue q.1 < indexKeyValue p.1 then q :: insertByIndexValue p rest
    else p :: q :: rest

/-- Stable insertion sort ascending by `indexKeyValue`. -/
def sortByIndexValue : List (List Char × JsValue) → List (List Char × JsValue)
  | [] => []
  | p :: rest => insertByIndexValue p (sortByIndexValue rest)

/-- JavaScript own-property enumeration order for an object literal
(`Object.values`, `Object.entries`, `JSON.stringify`): array-index-like
keys first in ascending numeric order, then the remaining keys in
insertion order. -/
def jsOwnKeysOrder (props : List (List Char × JsValue)) : List (List Char × JsValue) :=
  let idx := props.filter (fun p => isArrayIndexKey p.1)
  let rest := props.filter (fun p => !isArrayIndexKey p.1)
  sortByIndexValue idx ++ rest

/-- JavaScript property read `v[k]` on a JSON value, own properties only:
object fields; array elements, plus `length`; string characters, plus
`length`.  `none` is JavaScript `undefined`.  Reading a property of `null`
would throw, but every call site guards with a truthiness check first. -/
def jsGet : JsValue → List Char → Option JsValue
  | .obj props, k => (props.find? (fun p => p.1 = k)).map (·.2)
  | .arr l, k =>
    if k = "length".data then some (.num l.length)
    else
      match decodeCanonicalIndex k with
      | some i => l[i]?
      | none => none
  | .str s, k =>
    if k = "length".data then some (.num s.length)
    else
      match decodeCanonicalIndex k with
      | some i => (s[i]?).map (fun c => .str [c])
      | none => none
  | _, _ => none

/-- `path.split('.')` of JavaScript on a character list: always nonempty,
with empty segments for leading/trailing/doubled dots. -/
def splitOnDot : List Char → List (List Char)
  | [] => [[]]
  | c :: rest =>
    match splitOnDot rest with
    | [] => [[]]
    | h :: t => if c = '.' then [] :: h :: t else (c :: h) :: t

/-- `key.includes('.')`. -/
def containsDot (s : List Char) : Bool := s.contains '.'

/-- `TranslationService.getNestedValue`: reduce over the dot-separated
segments, stepping with `current && current[key] !== undefined ?
current[key] : undefined`.  A falsy intermediate value (including the
empty string) short-circuits to `undefined`. -/
def getNestedValue (obj : JsValue) (path : List Char) : Option JsValue :=
  (splitOnDot path).foldl
    (fun current key =>
      match current with
      | none => none
      | some v => if jsTruthy v then jsGet v key else none)
    (some obj)

mutual

/-- String conversion of a value by a template literal, as in the
interpolation of `getTranslation` that appends the variant marker. -/
def jsToString : JsValue → List Char
  | .str s => s
  | .num n => (toString n).data
  | .bool b => if b then "true".data else "false".data
  | .null => "null".data
  | .obj _ => "[object Object]".data
  | .arr l => jsToStringJoin l

/-- `Array.prototype.toString`: elements stringified and joined with commas,
`null` elements contributing the empty string. -/
def jsToStringJoin : List JsValue → List Char
  | [] => []
  | v :: rest =>
    (match v with
     | .null => []
     | w => jsToString w) ++
    (match rest with
     | [] => []
     | _ => ',' :: jsToStringJoin rest)

end

/-- `Object.values(m)`: own enumerable property values in own-key order.
Strings enumerate their characters; numbers and booleans have no own
enumerable properties. -/
def jsOwnValues : JsValue → List JsValue
  | .obj props => (jsOwnKeysOrder props).map (·.2)
  | .arr l => l
  | .str s => s.map (fun c => .str [c])
  | _ => []

/-- `TranslationService.processParaglideVariant`: take the first element of
the array, require it truthy with `typeof === 'object'` and a truthy
`match` property, then return the first value of the `match` object
(`Object.values(...)[0]`), or `null` (here `none`) otherwise. -/
def processParaglideVariant (variantArray : List JsValue) : Option JsValue :=
  match variantArray with
  | [] => none
  | firstVariant :: _ =>
    if !jsTruthy firstVariant || !jsTypeofObject firstVariant then none
    else
      match jsGet firstVariant "match".data with
      | none => none
      | some m =>
        if !jsTruthy m then none
        else (jsOwnValues m).head?

/-- `TranslationService.getTranslation`: guard on a truthy document, look
the key up (nested reduce when it contains a dot, plain property read
otherwise), then classify the resolved node: strings verbatim; arrays via
the variant projection with `'*'` appended when the projected value is
truthy; everything else — `undefined`, `null`, numbers, booleans, plain
objects — gives `null` (`none`). -/
def getTranslation (translations : JsValue) (key : List Char) : Option (List Char) :=
  if !jsTruthy translations then none
  else
    let value : Option JsValue :=
      if containsDot key then getNestedValue translations key
      else jsGet translations key
    match value with
    | none => none
    | some .null => none
    | some (.str s) => some s
    | some (.arr l) =>
      match processParaglideVariant l with
      | some variantValue =>
        if jsTruthy variantValue then some (jsToString variantValue ++ ['*']) else none
      | none => none
    | some _ => none

/-! ## Call-site scanning (`findTranslationCalls`) -/

/-- The two syntactic key forms a call site can use. -/
inductive KeyType where
  | flat
  | nested
deriving DecidableEq

/-- A scanned call site, as pushed by `findTranslationCalls`:
`methodName` is the translation key, `params` the trimmed argument text,
`start`/`endPos` the match offsets, `keyType` the syntactic form. -/
structure TranslationCall where
  methodName : List Char
  params : List Char
  start : Nat
  endPos : Nat
  keyType : KeyType
deriving DecidableEq

/-- `String.prototype.trim`: strip leading and trailing JavaScript
whitespace. -/
def jsTrim (l : List Char) : List Char :=
  ((l.dropWhile isJsSpace).reverse.dropWhile isJsSpace).reverse

/-- The shared argument-list tail of both scanner regexes — whitespace,
an opening parenthesis, whitespace, then the greedy capture of every
character up to the first closing parenthesis.  Returns the raw captured
group and the suffix after the closing parenthesis. -/
def matchCallTail (l : List Char) : Option (List Char × List Char) :=
  match l.dropWhile isJsSpace with
  | c :: l2 =>
    if c = '(' then
      match (l2.dropWhile isJsSpace).dropWhile (fun x => x != ')') with
      | d :: l5 =>
        if d = ')' then some ((l2.dropWhile isJsSpace).takeWhile (fun x => x != ')'), l5)
        else none
      | [] => none
    else none
  | [] => none

/-- Match the flat pattern anchored at the head of `l`; `prevIsWord`
says whether the character before this position is a word character (the
word boundary before the accessor `m`).  Returns the identifier, the raw
argument group and the suffix after the match. -/
def matchFlat (prevIsWord : Bool) (l : List Char) : Option (List Char × List Char × List Char) :=
  match l with
  | a :: b :: c :: l3 =>
    if prevIsWord then none
    else if a = 'm' ∧ b = '.' ∧ isIdentStart c then
      match matchCallTail (l3.dropWhile isIdentChar) with
      | some (g, rest) => some (c :: l3.takeWhile isIdentChar, g, rest)
      | none => none
    else none
  | _ => none

/-- The backtick character, the third quote kind accepted by the bracket
pattern's quote class. -/
def backQuoteChar : Char := Char.ofNat 96

/-- Backtracking search of the greedy key group of the bracket pattern:
try the key length `n` (longest first), requiring the back-referenced
closing quote, the closing bracket and the argument tail, and shorten the
key on failure, exactly as the regex engine backtracks the greedy group. -/
def matchNestedKey (q : Char) (l3 : List Char) : Nat → Option (List Char × List Char × List Char)
  | 0 => none
  | n + 1 =>
    match l3.drop (n + 1) with
    | q' :: b :: l4 =>
      if q' = q ∧ b = ']' then
        match matchCallTail l4 with
        | some (g, rest) => some (l3.take (n + 1), g, rest)
        | none => matchNestedKey q l3 n
      else matchNestedKey q l3 n
    | _ => matchNestedKey q l3 n

/-- Match the bracket pattern anchored at the head of `l`: accessor,
opening bracket, one of the three quote characters, a nonempty key of
characters that are neither single nor double quotes, the same quote,
closing bracket, then the argument tail.  Returns the quote, key, raw
argument group and remaining suffix. -/
def matchNested (prevIsWord : Bool) (l : List Char) :
    Option (Char × List Char × List Char × List Char) :=
  match l with
  | a :: b :: q :: l3 =>
    if prevIsWord then none
    else if a = 'm' ∧ b = '[' ∧ (q = '\'' ∨ q = '"' ∨ q = backQuoteChar) then
      (matchNestedKey q l3
          (l3.takeWhile (fun c => c != '\'' && c != '"')).length).map
        (fun r => (q, r))
    else none
  | _ => none

/-- The `exec` loop of the flat `/g` regex: try the pattern at every
position in source order and, on a match, emit the call and resume right
after it (the engine's `lastIndex`).  Every match ends with the closing
parenthesis, which is not a word character, so the resumed position's
word-boundary state is `false`.  The loop terminates because a step
consumes at least one character (`matchFlat_length`); `fuel` is a bound
on the number of steps, and `l.length` is always sufficient. -/
def scanFlatFuel : Nat → Bool → Nat → List Char → List TranslationCall
  | 0, _, _, _ => []
  | fuel + 1, prevIsWord, pos, l =>
    match l with
    | [] => []
    | c :: rest =>
      match matchFlat prevIsWord (c :: rest) with
      | some (ident, g, after) =>
        { methodName := ident, params := jsTrim g, start := pos,
          endPos := pos + ((c :: rest).length - after.length), keyType := .flat }
          :: scanFlatFuel fuel false (pos + ((c :: rest).length - after.length)) after
      | none => scanFlatFuel fuel (isWordChar c) (pos + 1) rest

/-- The flat pass over a whole suffix, with sufficient fuel. -/
def scanFlat (prevIsWord : Bool) (pos : Nat) (l : List Char) : List TranslationCall :=
  scanFlatFuel l.length prevIsWord pos l

/-- The `exec` loop of the bracket `/g` regex, as `scanFlatFuel`. -/
def scanNestedFuel : Nat → Bool → Nat → List Char → List TranslationCall
  | 0, _, _, _ => []
  | fuel + 1, prevIsWord, pos, l =>
    match l with
    | [] => []
    | c :: rest =>
      match matchNested prevIsWord (c :: rest) with
      | some (_, key, g, after) =>
        { methodName := key, params := jsTrim g, start := pos,
          endPos := pos + ((c :: rest).length - after.length), keyType := .nested }
          :: scanNestedFuel fuel false (pos + ((c :: rest).length - after.length)) after
      | none => scanNestedFuel fuel (isWordChar c) (pos + 1) rest

/-- The bracket pass over a whole suffix, with sufficient fuel. -/
def scanNested (prevIsWord : Bool) (pos : Nat) (l : List Char) : List TranslationCall :=
  scanNestedFuel l.length prevIsWord pos l

/-- Stable insertion (before the first element with a start offset that is
not smaller) into a list sorted by start offset. -/
def insertByStart (c : TranslationCall) : List TranslationCall → List TranslationCall
  | [] => [c]
  | d :: rest =>
    if d.start < c.start then d :: insertByStart c rest else c :: d :: rest

/-- Stable insertion sort by ascending start offset.  `Array.prototype.sort`
with the comparator on `start` is a stable sort, and the two pattern passes
never produce equal start offsets, so any stable (indeed any correct) sort
computes the same list. -/
def sortByStart : List TranslationCall → List TranslationCall
  | [] => []
  | c :: rest => insertByStart c (sortByStart rest)

/-- `TranslationService.findTranslationCalls`: run the flat and the bracket
pattern passes independently over the whole text, then sort the combined
list by ascending start offset. -/
def findTranslationCalls (text : List Char) : List TranslationCall :=
  sortByStart (scanFlat false 0 text ++ scanNested false 0 text)

/-! ## Locale configuration (`LocaleService`) -/

/-- The typed shape of a parsed `project.inlang/settings.json`, restricted
to the two fields the modelled code paths read.  `none` models an absent
field (JavaScript `undefined`); `some ""` and `some []` model present but
falsy/empty values. -/
structure InlangSettings where
  baseLocale : Option (List Char)
  locales : Option (List (List Char))

/-- `LocaleService.loadInlangSettings`, over an explicit file state:
`none` = file missing, `some none` = file present but unparseable (the
thrown `JSON.parse` error is caught and `null` returned), `some (some s)`
= parsed settings.  A missing and a malformed file are indistinguishable
to callers. -/
def loadInlangSettings : Option (Option InlangSettings) → Option InlangSettings
  | none => none
  | some none => none
  | some (some s) => some s

/-- Tiers 2 and 3 of `getCurrentLocale`: the inlang `baseLocale` when the
settings loaded and the field is truthy, else the literal `"en"`. -/
def getCurrentLocaleFallback (hasWorkspace : Bool) (settings : Option InlangSettings) :
    List Char :=
  if hasWorkspace then
    match settings with
    | some st =>
      match st.baseLocale with
      | some b => if b ≠ [] then b else "en".data
      | none => "en".data
    | none => "en".data
  else "en".data

/-- `LocaleService.getCurrentLocale` over explicit inputs: the
`elementaryWatson.defaultLocale` configuration value (`none` = unset),
whether a workspace folder is open, and the loaded inlang settings.
Tier 1 requires a truthy (nonempty) override; tier 2 requires truthy
settings with a truthy `baseLocale`; tier 3 is the literal `"en"`. -/
def getCurrentLocale (configLocale : Option (List Char)) (hasWorkspace : Bool)
    (settings : Option InlangSettings) : List Char :=
  match configLocale with
  | some s =>
    if s ≠ [] then s
    else getCurrentLocaleFallback hasWorkspace settings
  | none => getCurrentLocaleFallback hasWorkspace settings

/-! ## Cross-locale fallback and result classification -/

/-- `inlangSettings?.locales || ['en']`: the configured locale list, with
the default applied only when the field is absent/falsy (an empty array is
truthy in JavaScript and is kept). -/
def availableLocalesOf (settings : Option InlangSettings) : List (List Char) :=
  match settings with
  | some st =>
    match st.locales with
    | some ls => ls
    | none => ["en".data]
  | none => ["en".data]

/-- The locale iteration of `searchKeyInAllLocales`: skip the current
locale, skip locales whose document fails to load (`null`) or is falsy,
and return the first truthy `getTranslation` hit with its locale. -/
def searchLocales (docs : List Char → Option JsValue) (key currentLocale : List Char) :
    List (List Char) → Option (List Char × List Char)
  | [] => none
  | locale :: rest =>
    if locale = currentLocale then searchLocales docs key currentLocale rest
    else
      match docs locale with
      | some translations =>
        if jsTruthy translations then
          match getTranslation translations key with
          | some tv =>
            if tv ≠ [] then some (tv, locale)
            else searchLocales docs key currentLocale rest
          | none => searchLocales docs key currentLocale rest
        else searchLocales docs key currentLocale rest
      | none => searchLocales docs key currentLocale rest

/-- `TranslationService.searchKeyInAllLocales`: load the settings, take
the configured locales (default `['en']`), and scan them in declared
order.  `docs` models `loadTranslationsForLocale` (`none` = missing file
or parse failure). -/
def searchKeyInAllLocales (docs : List Char → Option JsValue)
    (settings : Option InlangSettings) (key currentLocale : List Char) :
    Option (List Char × List Char) :=
  searchLocales docs key currentLocale (availableLocalesOf settings)

/-- The two warning states a resolution result can carry. -/
inductive WarningType where
  | missingLocale
  | noLocale
deriving DecidableEq

/-- One element of the list built by `processTranslationCallsWithWarnings`:
the spread call plus `translationValue`, `warningType` and (only for the
missing-locale case) `foundInLocale`. -/
structure TranslationResult where
  call : TranslationCall
  translationValue : Option (List Char)
  warningType : Option WarningType
  foundInLocale : Option (List Char)
deriving DecidableEq

/-- The missing-in-current-locale branch of the classification. -/
def classifyFallback (docs : List Char → Option JsValue)
    (settings : Option InlangSettings) (currentLocale : List Char)
    (call : TranslationCall) : TranslationResult :=
  match searchKeyInAllLocales docs settings call.methodName currentLocale with
  | some (tv, locale) => ⟨call, some tv, some .missingLocale, some locale⟩
  | none => ⟨call, none, some .noLocale, none⟩

/-- The per-call classification step of
`processTranslationCallsWithWarnings`: a truthy translation in the current
locale gives the no-warning result; otherwise the cross-locale search
decides between the missing-locale and the no-locale result. -/
def classifyCall (translations : JsValue) (docs : List Char → Option JsValue)
    (settings : Option InlangSettings) (currentLocale : List Char)
    (call : TranslationCall) : TranslationResult :=
  match getTranslation translations call.methodName with
  | some v =>
    if v ≠ [] then ⟨call, some v, none, none⟩
    else classifyFallback docs settings currentLocale call
  | none => classifyFallback docs settings currentLocale call

/-- `TranslationService.processTranslationCallsWithWarnings`: one result
per call, in order. -/
def processTranslationCallsWithWarnings (translationCalls : List TranslationCall)
    (translations : JsValue) (docs : List Char → Option JsValue)
    (settings : Option InlangSettings) (currentLocale : List Char) :
    List TranslationResult :=
  translationCalls.map (classifyCall translations docs settings currentLocale)

/-! ## Extraction writes (`ExtractionService`) -/

/-- JavaScript property assignment on an object's property list: an
existing key is updated in place (enumeration position kept), a new key is
appended. -/
def jsSetProp : List (List Char × JsValue) → List Char → JsValue →
    List (List Char × JsValue)
  | [], k, v => [(k, v)]
  | (k', v') :: rest, k, v =>
    if k' = k then (k, v) :: rest else (k', v') :: jsSetProp rest k v

/-- The assignment `current[k] = v` as it affects the serialized
document: a property set on an object; a thrown `TypeError` (`none`) on
`null`; on an array, the extraction's non-numeric keys land in properties
`JSON.stringify` omits, leaving the document unchanged; on a primitive,
the sloppy-mode write is a silent no-op. -/
def setNestedAssign : JsValue → List Char → JsValue → Option JsValue
  | .obj props, k, v => some (.obj (jsSetProp props k v))
  | .null, _, _ => none
  | .arr l, _, _ => some (.arr l)
  | other, _, _ => some other

/-- The navigation-then-assign recursion of
`ExtractionService.setNestedValue` over the key's segments (the JS code
pops the last segment and loops over the rest; here the recursion assigns
when the current segment is the last one).  At a navigation segment whose
current value is `undefined`, a non-object or an array, the value is
replaced by a fresh `{}` (the guard `current[key] === undefined || typeof
current[key] !== 'object' || Array.isArray(current[key])`); `null` passes
that guard un-replaced — `typeof null === 'object'` — and the next access
on it throws (`none`).  Navigating from a primitive leaves `current`
`undefined` after the silently-dropped sloppy-mode write, so the next
access throws (`none`); navigating from an array under non-numeric keys
only touches properties invisible to `JSON.stringify`. -/
def setNestedPath : JsValue → List Char → List (List Char) → JsValue → Option JsValue
  | current, lastKey, [], v => setNestedAssign current lastKey v
  | current, seg, seg2 :: rest, v =>
    match current with
    | .obj props =>
      (setNestedPath
          (match jsGet (.obj props) seg with
           | some (.obj cprops) => .obj cprops
           | some .null => .null
           | some _ => .obj []
           | none => .obj [])
          seg2 rest v).map
        (fun child => .obj (jsSetProp props seg child))
    | .null => none
    | .arr l => some (.arr l)
    | _ => none

/-- `ExtractionService.setNestedValue`: flat keys are a single property
assignment; dotted keys split into segments and go through the
navigation-then-assign recursion.  `none` models a thrown `TypeError`
(caught in `updateLocaleFile` and rethrown, failing the extraction). -/
def setNestedValue (translations : JsValue) (path : List Char) (value : JsValue) :
    Option JsValue :=
  if !containsDot path then setNestedAssign translations path value
  else
    match splitOnDot path with
    | seg :: segs => setNestedPath translations seg segs value
    | [] => none

/-- The document transformation of `ExtractionService.updateLocaleFile`:
parse the existing file (or start from `{}` when it is missing), set the
key, serialize back.  The file content is represented by its parsed
value. -/
def updateLocaleFileDoc (existing : Option JsValue) (key : List Char)
    (value : JsValue) : Option JsValue :=
  setNestedValue (existing.getD (.obj [])) key value

/-- One locale-file write inside `addToLocaleFiles`, updating the
per-locale document map (locale data paths are distinct per locale under
a `{locale}` path template). -/
def writeLocale (files : List Char → Option JsValue) (locale key : List Char)
    (value : JsValue) : Option (List Char → Option JsValue) :=
  match updateLocaleFileDoc (files locale) key value with
  | some d => some (fun l => if l = locale then some d else files l)
  | none => none

/-- The other-locales loop of `addToLocaleFiles`: every configured locale
except the base locale receives the empty-string placeholder, in declared
order; a failed write aborts (the catch returns `false`). -/
def addLocalesGo (baseLocale key : List Char) :
    List (List Char) → (List Char → Option JsValue) →
    Option (List Char → Option JsValue)
  | [], files => some files
  | locale :: rest, files =>
    if locale ≠ baseLocale then
      match writeLocale files locale key (.str []) with
      | some files2 => addLocalesGo baseLocale key rest files2
      | none => none
    else addLocalesGo baseLocale key rest files

/-- `inlangSettings?.baseLocale || 'en'`. -/
def baseLocaleOf (settings : Option InlangSettings) : List Char :=
  match settings with
  | some st =>
    match st.baseLocale with
    | some b => if b ≠ [] then b else "en".data
    | none => "en".data
  | none => "en".data

/-- `ExtractionService.addToLocaleFiles`: write the real value under the
key into the base locale's file first, then the empty-string placeholder
into every other configured locale's file.  Returns the final per-locale
document map, or `none` when a write failed. -/
def addToLocaleFiles (settings : Option InlangSettings)
    (files : List Char → Option JsValue) (key value : List Char) :
    Option (List Char → Option JsValue) :=
  match writeLocale files (baseLocaleOf settings) key (.str value) with
  | some files1 =>
    addLocalesGo (baseLocaleOf settings) key (availableLocalesOf settings) files1
  | none => none

/-- The top-level key sequence `JSON.stringify` writes for a document:
own keys in enumeration order (array-index-like keys first, ascending;
then insertion order).  Non-objects serialize without top-level keys. -/
def stringifyTopKeys : JsValue → List (List Char)
  | .obj props => (jsOwnKeysOrder props).map (·.1)
  | _ => []

/-! ## The debounce scheduler (`ExtensionActivator`) -/

/-- An externally observable event for one document, at a millisecond
timestamp: a relevant content mutation (one that passes
`shouldUpdateForChange` with real-time updates enabled), or a save. -/
inductive DocEvent where
  | mutation (t : Nat)
  | save (t : Nat)

/-- How a re-scan/resolve cycle was triggered: by a debounce timer
expiring, or synchronously by the save listener. -/
inductive CycleKind where
  | debounced
  | immediate
deriving DecidableEq

/-- Timestamp of an event. -/
def DocEvent.time : DocEvent → Nat
  | .mutation t => t
  | .save t => t

/-- Fire a pending timer that is due at or before time `t`, returning the
new pending state and the cycles emitted. -/
def firePending (pending : Option Nat) (t : Nat) : Option Nat × List (Nat × CycleKind) :=
  match pending with
  | some s => if s ≤ t then (none, [(s, .debounced)]) else (some s, [])
  | none => (none, [])

/-- The per-document scheduler semantics of `debounceDocumentUpdate` and
the save listener, over a time-ordered event trace: a relevant mutation
clears any existing timeout and sets a fresh one at its time plus the
configured delay (`clearTimeout`/`setTimeout` in
`debounceDocumentUpdate`); a save clears any pending timeout and runs an
immediate cycle (`onDidSaveTextDocument`); a timer that reaches its
scheduled time runs a debounced cycle.  Returns the emitted cycles with
their times, in order. -/
def runDebounceEvents (delay : Nat) : Option Nat → List DocEvent → List (Nat × CycleKind)
  | pending, [] =>
    match pending with
    | some s => [(s, .debounced)]
    | none => []
  | pending, e :: rest =>
    (firePending pending e.time).2 ++
      (match e with
       | .mutation t => runDebounceEvents delay (some (t + delay)) rest
       | .save t => (t, .immediate) :: runDebounceEvents delay none rest)

/-- The scheduler run from the idle state. -/
def runDebounce (delay : Nat) (events : List DocEvent) : List (Nat × CycleKind) :=
  runDebounceEvents delay none events

/-! ## Specification-side definitions

Definitions in this section follow the wording of the specification (as
amended where a counterexample forces it), to be compared with the
definitions above that were translated from the source. -/

/-- Specification-side lookup traversal, segment by segment: object
fields by name; nonempty strings and arrays indexable by canonical
numeric segments and by `length`; every other intermediate node — the
empty string (falsy), numbers, booleans, `null` — cannot be traversed
into; a missing segment yields nothing. -/
def lookupSpecNode : JsValue → List (List Char) → Option JsValue
  | v, [] => some v
  | .obj props, seg :: rest =>
    match (props.find? (fun p => p.1 = seg)).map (·.2) with
    | some w => lookupSpecNode w rest
    | none => none
  | .arr l, seg :: rest =>
    if seg = "length".data then lookupSpecNode (.num l.length) rest
    else
      match decodeCanonicalIndex seg with
      | some i =>
        match l[i]? with
        | some w => lookupSpecNode w rest
        | none => none
      | none => none
  | .str s, seg :: rest =>
    if s = [] then none
    else if seg = "length".data then lookupSpecNode (.num s.length) rest
    else
      match decodeCanonicalIndex seg with
      | some i =>
        match s[i]? with
        | some c => lookupSpecNode (.str [c]) rest
        | none => none
      | none => none
  | _, _ :: _ => none

/-- Specification-side variant projection: the first variant must be an
object with a truthy `match` property; the displayed value is the first
`match` value (in own-key order), stringified with the `'*'` marker
appended, provided that value is truthy; empty or malformed variant lists
yield nothing. -/
def variantView (variantList : List JsValue) : Option (List Char) :=
  match variantList.head? with
  | none => none
  | some (.obj fprops) =>
    match (fprops.find? (fun p => p.1 = "match".data)).map (·.2) with
    | some m =>
      if jsTruthy m then
        match (jsOwnValues m).head? with
        | some mv => if jsTruthy mv then some (jsToString mv ++ ['*']) else none
        | none => none
      else none
    | none => none
  | some _ => none

/-- Specification-side rendering of a resolved node: strings verbatim,
variant lists through `variantView`, everything else (missing, `null`,
numbers, booleans, plain objects) nothing. -/
def renderSpec : Option JsValue → Option (List Char)
  | some (.str s) => some s
  | some (.arr l) => variantView l
  | _ => none

/-- Specification-side `get`: on a truthy document, split the key on dots
(a dot-free key is a single segment), traverse, render. -/
def lookupSpec (translations : JsValue) (key : List Char) : Option (List Char) :=
  if !jsTruthy translations then none
  else renderSpec (lookupSpecNode translations (splitOnDot key))

/-- Tiers 2 and 3 of the specification's `resolveActiveLocale`, over the
raw config-file state: a missing (`none`) or malformed (`some none`)
locale-config file is treated as absent and falls through to `"en"`; a
parsed file contributes its `baseLocale` only when a workspace is open
and the field is a nonempty string. -/
def resolveSpecBase (hasWorkspace : Bool)
    (settingsFile : Option (Option InlangSettings)) : List Char :=
  match settingsFile with
  | some (some st) =>
    if hasWorkspace then
      match st.baseLocale with
      | some b => if b ≠ [] then b else "en".data
      | none => "en".data
    else "en".data
  | _ => "en".data

/-- The specification's `resolveActiveLocale`: a nonempty explicit
override wins; otherwise the config-file tier; otherwise `"en"`. -/
def resolveActiveLocaleSpec (override : Option (List Char)) (hasWorkspace : Bool)
    (settingsFile : Option (Option InlangSettings)) : List Char :=
  match override with
  | some o => if o ≠ [] then o else resolveSpecBase hasWorkspace settingsFile
  | none => resolveSpecBase hasWorkspace settingsFile

/-- The truthy-hit test the fallback search applies to one locale: a
loaded, truthy document whose lookup for the key is a nonempty string. -/
def truthyLookup (docs : List Char → Option JsValue) (key locale : List Char) :
    Option (List Char) :=
  match docs locale with
  | some t =>
    if jsTruthy t then
      match getTranslation t key with
      | some v => if v ≠ [] then some v else none
      | none => none
    else none
  | none => none

/-- The fresh object chain `setNestedValue` builds below a replaced or
missing prefix: one nested singleton object per remaining segment, with
the value at the bottom. -/
def freshChain : List Char → List (List Char) → JsValue → JsValue
  | seg, [], v => .obj [(seg, v)]
  | seg, seg2 :: rest, v => .obj [(seg, freshChain seg2 rest v)]

/-- A plain (non-array) object. -/
def isPlainObject : JsValue → Bool
  | .obj _ => true
  | _ => false

/-- The `null` value. -/
def isNullValue : JsValue → Bool
  | .null => true
  | _ => false

/-- The property list a locale file contributes when loaded for a write:
its object's properties, or none for a missing file. -/
def objPropsOf : Option JsValue → List (List Char × JsValue)
  | some (.obj ps) => ps
  | _ => []

/-! ## Supporting lemmas -/

theorem matchCallTail_length {l g rest : List Char}
    (h : matchCallTail l = some (g, rest)) : rest.length < l.length := by
  unfold matchCallTail at h
  split at h
  · rename_i c l2 hd
    split at h
    · split at h
      · rename_i d l5 hd3
        split at h
        · simp only [Option.some.injEq, Prod.mk.injEq] at h
          obtain ⟨-, hr⟩ := h
          subst hr
          have a1 : (l.dropWhile isJsSpace).length ≤ l.length :=
            (List.dropWhile_sublist _).length_le
          have a2 : ((l2.dropWhile isJsSpace).dropWhile (fun x => x != ')')).length
              ≤ l2.length :=
            le_trans (List.dropWhile_sublist _).length_le
              (List.dropWhile_sublist _).length_le
          rw [hd] at a1
          rw [hd3] at a2
          simp only [List.length_cons] at a1 a2
          omega
        · exact absurd h (by simp)
      · exact absurd h (by simp)
    · exact absurd h (by simp)
  · exact absurd h (by simp)

theorem matchFlat_length {p : Bool} {l ident g rest : List Char}
    (h : matchFlat p l = some (ident, g, rest)) : rest.length < l.length := by
  unfold matchFlat at h
  split at h
  · rename_i a b c l3
    split at h
    · exact absurd h (by simp)
    · split at h
      · rcases heq2 : matchCallTail (l3.dropWhile isIdentChar) with _ | ⟨g', rest'⟩ <;>
          rw [heq2] at h
        · exact absurd h (by simp)
        · simp only [Option.some.injEq, Prod.mk.injEq] at h
          obtain ⟨-, -, hr⟩ := h
          subst hr
          have h1 := matchCallTail_length heq2
          have h2 : (l3.dropWhile isIdentChar).length ≤ l3.length :=
            (List.dropWhile_sublist _).length_le
          simp only [List.length_cons]
          omega
      · exact absurd h (by simp)
  all_goals exact absurd h (by simp)

theorem matchNestedKey_length {q : Char} {l3 k g rest : List Char} :
    ∀ {n : Nat}, matchNestedKey q l3 n = some (k, g, rest) → rest.length < l3.length := by
  intro n
  induction n with
  | zero => intro h; exact absurd h (by simp [matchNestedKey])
  | succ n ih =>
    intro h
    unfold matchNestedKey at h
    split at h
    · rename_i q' b l4 heq1
      split at h
      · rcases heq2 : matchCallTail l4 with _ | ⟨g', rest'⟩ <;> rw [heq2] at h
        · exact ih h
        · simp only [Option.some.injEq, Prod.mk.injEq] at h
          obtain ⟨-, -, hr⟩ := h
          subst hr
          have h1 := matchCallTail_length heq2
          have h2 : (l3.drop (n + 1)).length ≤ l3.length :=
            (List.drop_sublist _ _).length_le
          rw [heq1] at h2
          simp only [List.length_cons] at h2
          omega
      · exact ih h
    · exact ih h

theorem matchNested_length {p : Bool} {l : List Char} {q : Char} {k g rest : List Char}
    (h : matchNested p l = some (q, k, g, rest)) : rest.length < l.length := by
  unfold matchNested at h
  split at h
  · rename_i a b q0 l3
    split at h
    · exact absurd h (by simp)
    · split at h
      · rcases heq2 : matchNestedKey q0 l3
            (l3.takeWhile (fun c => c != '\'' && c != '"')).length
          with _ | ⟨k', g', rest'⟩ <;> rw [heq2] at h
        · exact absurd h (by simp)
        · simp only [Option.map_some', Option.some.injEq, Prod.mk.injEq] at h
          obtain ⟨-, -, -, hr⟩ := h
          subst hr
          have h1 := matchNestedKey_length heq2
          simp only [List.length_cons]
          omega
      · exact absurd h (by simp)
  all_goals exact absurd h (by simp)

theorem getNestedValue_foldl_none (segs : List (List Char)) :
    segs.foldl
      (fun current key =>
        match current with
        | none => none
        | some v => if jsTruthy v then jsGet v key else none)
      none = none := by
  induction segs with
  | nil => rfl
  | cons s segs ih => rw [List.foldl_cons]; exact ih

theorem getNestedValue_eq_lookupSpecNode : ∀ (segs : List (List Char)) (v : JsValue),
    segs.foldl
      (fun current key =>
        match current with
        | none => none
        | some v => if jsTruthy v then jsGet v key else none)
      (some v) = lookupSpecNode v segs := by
  intro segs
  induction segs with
  | nil => intro v; cases v <;> rfl
  | cons seg rest ih =>
    intro v
    rw [List.foldl_cons]
    cases v with
    | obj props =>
      show rest.foldl _ (jsGet (.obj props) seg) = _
      cases hf : (props.find? (fun p => p.1 = seg)).map (·.2) with
      | none =>
        rw [show jsGet (.obj props) seg = none from hf]
        rw [getNestedValue_foldl_none]
        simp [lookupSpecNode, hf]
      | some w =>
        rw [show jsGet (.obj props) seg = some w from hf]
        rw [ih w]
        simp [lookupSpecNode, hf]
    | arr l =>
      show rest.foldl _ (jsGet (.arr l) seg) = _
      by_cases hlen : seg = "length".data
      · rw [show jsGet (.arr l) seg = some (.num l.length) by
          simp [jsGet, hlen]]
        rw [ih]
        simp [lookupSpecNode, hlen]
      · cases hdec : decodeCanonicalIndex seg with
        | none =>
          rw [show jsGet (.arr l) seg = none by simp [jsGet, hlen, hdec]]
          rw [getNestedValue_foldl_none]
          simp [lookupSpecNode, hlen, hdec]
        | some i =>
          cases hget : l[i]? with
          | none =>
            rw [show jsGet (.arr l) seg = none by simp [jsGet, hlen, hdec, hget]]
            rw [getNestedValue_foldl_none]
            simp [lookupSpecNode, hlen, hdec, hget]
          | some w =>
            rw [show jsGet (.arr l) seg = some w by simp [jsGet, hlen, hdec, hget]]
            rw [ih]
            simp [lookupSpecNode, hlen, hdec, hget]
    | str s =>
      cases s with
      | nil =>
        show rest.foldl _ (if jsTruthy (.str []) then _ else none) = _
        rw [show jsTruthy (.str []) = false from rfl]
        simp only [Bool.false_eq_true, if_false]
        rw [getNestedValue_foldl_none]
        simp [lookupSpecNode]
      | cons c cs =>
        show rest.foldl _ (jsGet (.str (c :: cs)) seg) = _
        by_cases hlen : seg = "length".data
        · rw [show jsGet (.str (c :: cs)) seg = some (.num (c :: cs).length) by
            simp [jsGet, hlen]]
          rw [ih]
          simp [lookupSpecNode, hlen]
        · cases hdec : decodeCanonicalIndex seg with
          | none =>
            rw [show jsGet (.str (c :: cs)) seg = none by simp [jsGet, hlen, hdec]]
            rw [getNestedValue_foldl_none]
            simp [lookupSpecNode, hlen, hdec]
          | some i =>
            cases hget : (c :: cs)[i]? with
            | none =>
              rw [show jsGet (.str (c :: cs)) seg = none by
                simp [jsGet, hlen, hdec, hget]]
              rw [getNestedValue_foldl_none]
              simp [lookupSpecNode, hlen, hdec, hget]
            | some w =>
              rw [show jsGet (.str (c :: cs)) seg = some (.str [w]) by
                simp [jsGet, hlen, hdec, hget]]
              rw [ih]
              simp [lookupSpecNode, hlen, hdec, hget]
    | num n =>
      have : (if jsTruthy (.num n) then jsGet (.num n) seg else none) = none := by
        cases h : jsTruthy (.num n) <;> simp [jsGet]
      show rest.foldl _ (if jsTruthy (.num n) then jsGet (.num n) seg else none) = _
      rw [this, getNestedValue_foldl_none]
      simp [lookupSpecNode]
    | bool b =>
      have : (if jsTruthy (.bool b) then jsGet (.bool b) seg else none) = none := by
        cases h : jsTruthy (.bool b) <;> simp [jsGet]
      show rest.foldl _ (if jsTruthy (.bool b) then jsGet (.bool b) seg else none) = _
      rw [this, getNestedValue_foldl_none]
      simp [lookupSpecNode]
    | null =>
      show rest.foldl _ (if jsTruthy .null then jsGet .null seg else none) = _
      rw [show jsTruthy JsValue.null = false from rfl]
      simp only [Bool.false_eq_true, if_false]
      rw [getNestedValue_foldl_none]
      simp [lookupSpecNode]

theorem splitOnDot_of_no_dot : ∀ {s : List Char}, containsDot s = false → splitOnDot s = [s] := by
  intro s
  induction s with
  | nil => intro h; rfl
  | cons c rest ih =>
    intro h
    simp only [containsDot, List.contains_cons, Bool.or_eq_false_iff] at h
    obtain ⟨h1, h2⟩ := h
    have h1' : ¬ '.' = c := by simpa using h1
    have hne : ¬ c = '.' := fun hh => h1' hh.symm
    have hih := ih h2
    simp only [splitOnDot, hih]
    rw [if_neg hne]

theorem processParaglideVariant_cons_obj (fprops : List (List Char × JsValue))
    (rest : List JsValue) :
    processParaglideVariant (.obj fprops :: rest) =
      match (fprops.find? (fun p => p.1 = "match".data)).map (·.2) with
      | none => none
      | some m => if !jsTruthy m then none else (jsOwnValues m).head? := rfl

theorem variantView_eq_processParaglideVariant (l : List JsValue) :
    (match processParaglideVariant l with
     | some variantValue =>
       if jsTruthy variantValue then some (jsToString variantValue ++ ['*']) else none
     | none => none) = variantView l := by
  cases l with
  | nil => rfl
  | cons first rest =>
    cases first with
    | obj fprops =>
      rw [processParaglideVariant_cons_obj]
      cases hm : (fprops.find? (fun p => p.1 = "match".data)).map (·.2) with
      | none => simp [variantView, hm]
      | some m =>
        simp only [variantView, List.head?_cons, hm]
        cases ht : jsTruthy m with
        | false => simp
        | true => simp only [Bool.not_true, Bool.false_eq_true, if_false, if_true]
    | arr a => rfl
    | null => rfl
    | str s =>
      have hpv : processParaglideVariant (.str s :: rest) = none := by
        unfold processParaglideVariant
        simp [jsTypeofObject]
      rw [hpv]
      simp [variantView]
    | num n =>
      have hpv : processParaglideVariant (.num n :: rest) = none := by
        unfold processParaglideVariant
        simp [jsTypeofObject]
      rw [hpv]
      simp [variantView]
    | bool b =>
      have hpv : processParaglideVariant (.bool b :: rest) = none := by
        unfold processParaglideVariant
        simp [jsTypeofObject]
      rw [hpv]
      simp [variantView]

/-- Claim C2 — counterexample.  The claim states that, for a dotted key,
"any missing segment or non-container intermediate node yields null".
In the document `{"a": "xyz"}` the intermediate node reached by segment
`a` is the string `"xyz"`, a non-container; yet looking up `"a.0"` does
not yield null: JavaScript exposes string characters as indexed
properties, so the traversal returns `"x"` and `getTranslation` returns
it verbatim. -/
theorem getTranslation_string_index_counterexample :
    getTranslation (.obj [("a".data, .str "xyz".data)]) "a.0".data = some "x".data ∧
    getTranslation (.obj [("a".data, .str "xyz".data)]) "a.0".data ≠ none := by
  decide

/-- Claim C2 — amended.  `getTranslation` coincides, on every document
and key, with the specification-side lookup `lookupSpec`: split the key
on dots (a dot-free key being a single segment), traverse segment by
segment — object fields by name, nonempty strings and arrays indexable by
canonical numeric segments and `length`, every other intermediate (or
falsy) node yielding null — then render the resolved node: strings
verbatim, variant lists as the first match value of the first variant
stringified with `'*'` appended when truthy, and every other shape
(including `null`, numbers, booleans, plain objects) as null. -/
theorem getTranslation_eq_lookupSpec (translations : JsValue) (key : List Char) :
    getTranslation translations key = lookupSpec translations key := by
  unfold getTranslation lookupSpec
  cases htr : jsTruthy translations with
  | false => simp
  | true =>
    simp only [Bool.not_true, Bool.false_eq_true, if_false]
    have hval : (if containsDot key then getNestedValue translations key
        else jsGet translations key) = lookupSpecNode translations (splitOnDot key) := by
      by_cases hd : containsDot key
      · rw [if_pos hd]
        exact getNestedValue_eq_lookupSpecNode (splitOnDot key) translations
      · rw [if_neg hd]
        rw [splitOnDot_of_no_dot (by simpa using hd)]
        cases translations with
        | obj props =>
          show (props.find? (fun p => p.1 = key)).map (·.2) = _
          cases hf : (props.find? (fun p => p.1 = key)).map (·.2) with
          | none => simp [lookupSpecNode, hf]
          | some w => simp [lookupSpecNode, hf]
        | arr l =>
          by_cases hlen : key = "length".data
          · simp [jsGet, lookupSpecNode, hlen]
          · cases hdec : decodeCanonicalIndex key with
            | none => simp [jsGet, lookupSpecNode, hlen, hdec]
            | some i =>
              cases hget : l[i]? with
              | none => simp [jsGet, lookupSpecNode, hlen, hdec, hget]
              | some w => simp [jsGet, lookupSpecNode, hlen, hdec, hget]
        | str s =>
          cases s with
          | nil => simp [jsTruthy] at htr
          | cons c cs =>
            by_cases hlen : key = "length".data
            · simp [jsGet, lookupSpecNode, hlen]
            · cases hdec : decodeCanonicalIndex key with
              | none => simp [jsGet, lookupSpecNode, hlen, hdec]
              | some i =>
                cases hget : (c :: cs)[i]? with
                | none => simp [jsGet, lookupSpecNode, hlen, hdec, hget]
                | some w => simp [jsGet, lookupSpecNode, hlen, hdec, hget]
        | num n => simp [jsGet, lookupSpecNode]
        | bool b => simp [jsGet, lookupSpecNode]
        | null => simp [jsTruthy] at htr
    rw [hval]
    cases hnode : lookupSpecNode translations (splitOnDot key) with
    | none => rfl
    | some v =>
      cases v with
      | str s => rfl
      | arr l => exact variantView_eq_processParaglideVariant l
      | num n => rfl
      | bool b => rfl
      | null => rfl
      | obj props => rfl

theorem mem_insertByStart {x c : TranslationCall} :
    ∀ {l : List TranslationCall}, x ∈ insertByStart c l ↔ x = c ∨ x ∈ l := by
  intro l
  induction l with
  | nil => simp [insertByStart]
  | cons d rest ih =>
    by_cases hd : d.start < c.start
    · simp only [insertByStart, if_pos hd, List.mem_cons, ih]
      tauto
    · simp only [insertByStart, if_neg hd, List.mem_cons]

theorem insertByStart_pairwise {c : TranslationCall} :
    ∀ {l : List TranslationCall},
      List.Pairwise (fun a b => a.start ≤ b.start) l →
      List.Pairwise (fun a b => a.start ≤ b.start) (insertByStart c l) := by
  intro l
  induction l with
  | nil => intro _; simp [insertByStart]
  | cons d rest ih =>
    intro h
    rw [List.pairwise_cons] at h
    obtain ⟨hd, hrest⟩ := h
    by_cases hlt : d.start < c.start
    · rw [insertByStart, if_pos hlt, List.pairwise_cons]
      refine ⟨?_, ih hrest⟩
      intro x hx
      rcases mem_insertByStart.mp hx with rfl | hx
      · omega
      · exact hd x hx
    · rw [insertByStart, if_neg hlt, List.pairwise_cons]
      refine ⟨?_, by rw [List.pairwise_cons]; exact ⟨hd, hrest⟩⟩
      intro x hx
      rcases List.mem_cons.mp hx with rfl | hx
      · omega
      · have := hd x hx
        omega

theorem sortByStart_pairwise :
    ∀ l : List TranslationCall,
      List.Pairwise (fun a b => a.start ≤ b.start) (sortByStart l) := by
  intro l
  induction l with
  | nil => simp [sortByStart]
  | cons c rest ih => exact insertByStart_pairwise ih

theorem mem_sortByStart {x : TranslationCall} :
    ∀ {l : List TranslationCall}, x ∈ sortByStart l ↔ x ∈ l := by
  intro l
  induction l with
  | nil => simp [sortByStart]
  | cons c rest ih =>
    simp only [sortByStart, mem_insertByStart, ih, List.mem_cons]

theorem runDebounceEvents_burst (delay : Nat) :
    ∀ (ts : List Nat) (t0 : Nat) (rest : List DocEvent),
      List.Chain (fun a b => a ≤ b ∧ b < a + delay) t0 ts →
      runDebounceEvents delay (some (t0 + delay)) (ts.map DocEvent.mutation ++ rest) =
        runDebounceEvents delay (some (ts.getLastD t0 + delay)) rest := by
  intro ts
  induction ts with
  | nil => intro t0 rest _; rfl
  | cons t1 ts' ih =>
    intro t0 rest h
    rw [List.chain_cons] at h
    obtain ⟨⟨h01, h02⟩, hchain⟩ := h
    show (firePending (some (t0 + delay)) (DocEvent.mutation t1).time).2 ++
      runDebounceEvents delay (some (t1 + delay)) (ts'.map DocEvent.mutation ++ rest) = _
    rw [show firePending (some (t0 + delay)) (DocEvent.mutation t1).time =
      (some (t0 + delay), []) by
        simp only [firePending, DocEvent.time]
        rw [if_neg (by omega)]]
    rw [ih t1 rest hchain]
    rw [List.getLastD_cons]
    rfl

theorem setNestedPath_freshChain :
    ∀ (segs : List (List Char)) (seg : List Char) (v : JsValue),
      setNestedPath (.obj []) seg segs v = some (freshChain seg segs v) := by
  intro segs
  induction segs with
  | nil => intro seg v; rfl
  | cons seg2 rest ih =>
    intro seg v
    simp only [setNestedPath,
      show jsGet (.obj ([] : List (List Char × JsValue))) seg = none from rfl,
      ih seg2 v, Option.map_some']
    rfl

theorem mem_map_fst_of_jsGet {props : List (List Char × JsValue)} {k : List Char}
    {w : JsValue} (h : jsGet (.obj props) k = some w) : k ∈ props.map Prod.fst := by
  have h' : (props.find? (fun p => p.1 = k)).map (·.2) = some w := h
  rw [Option.map_eq_some'] at h'
  obtain ⟨p, hp, -⟩ := h'
  have hmem := List.mem_of_find?_eq_some hp
  have hpk := List.find?_some hp
  simp only [decide_eq_true_eq] at hpk
  rw [← hpk]
  exact List.mem_map_of_mem Prod.fst hmem

theorem jsSetProp_map_fst_of_mem :
    ∀ {props : List (List Char × JsValue)} {k : List Char},
      k ∈ props.map Prod.fst → ∀ v : JsValue,
      (jsSetProp props k v).map Prod.fst = props.map Prod.fst := by
  intro props
  induction props with
  | nil => intro k h v; simp at h
  | cons p rest ih =>
    intro k h v
    by_cases hp : p.1 = k
    · simp [jsSetProp, hp]
    · rw [List.map_cons, List.mem_cons] at h
      rcases h with h | h
      · exact absurd h.symm hp
      · simp only [jsSetProp, if_neg hp, List.map_cons, ih h v]

theorem jsGet_jsSetProp_ne (props : List (List Char × JsValue)) (k1 k : List Char)
    (v : JsValue) (hk : k ≠ k1) :
    jsGet (.obj (jsSetProp props k1 v)) k = jsGet (.obj props) k := by
  induction props with
  | nil =>
    show (List.find? (fun p : List Char × JsValue => p.1 = k) [(k1, v)]).map (·.2) =
      (List.find? (fun p : List Char × JsValue => p.1 = k) []).map (·.2)
    rw [List.find?_cons_of_neg _ (by simp only [decide_eq_true_eq]; exact fun h => hk h.symm)]
  | cons p rest ih =>
    by_cases hp : p.1 = k1
    · have h1 : jsSetProp (p :: rest) k1 v = (k1, v) :: rest := by
        simp [jsSetProp, hp]
      rw [h1]
      show (List.find? (fun q : List Char × JsValue => q.1 = k) ((k1, v) :: rest)).map (·.2) =
        (List.find? (fun q : List Char × JsValue => q.1 = k) (p :: rest)).map (·.2)
      rw [List.find?_cons_of_neg _ (by simp only [decide_eq_true_eq]; exact fun h => hk h.symm)]
      rw [List.find?_cons_of_neg _ (by
        simp only [decide_eq_true_eq, hp]; exact fun h => hk h.symm)]
    · have h1 : jsSetProp (p :: rest) k1 v = p :: jsSetProp rest k1 v := by
        simp [jsSetProp, hp]
      rw [h1]
      by_cases hpk : p.1 = k
      · show (List.find? (fun q : List Char × JsValue => q.1 = k) (p :: jsSetProp rest k1 v)).map (·.2) =
          (List.find? (fun q : List Char × JsValue => q.1 = k) (p :: rest)).map (·.2)
        rw [List.find?_cons_of_pos _ (by simp [hpk]),
          List.find?_cons_of_pos _ (by simp [hpk])]
      · show (List.find? (fun q : List Char × JsValue => q.1 = k) (p :: jsSetProp rest k1 v)).map (·.2) =
          (List.find? (fun q : List Char × JsValue => q.1 = k) (p :: rest)).map (·.2)
        rw [List.find?_cons_of_neg _ (by simp [hpk]),
          List.find?_cons_of_neg _ (by simp [hpk])]
        exact ih

/-- Claim C3 — counterexample.  The claim states that a call site whose
key yields a *non-null* value from the active locale's document lookup is
classified `Resolved` with exactly that value.  With the document
`{"k": ""}`, the lookup yields the non-null empty string, yet the code's
truthiness test `if (currentTranslation)` treats it as missing: with no
other locale to fall back on, the result is `Unresolved` (`noLocale`)
with a null value. -/
theorem classify_empty_value_counterexample :
    getTranslation (.obj [("k".data, .str [])]) "k".data = some [] ∧
    processTranslationCallsWithWarnings [⟨"k".data, [], 0, 5, .flat⟩]
        (.obj [("k".data, .str [])]) (fun _ => none)
        (some ⟨none, some ["en".data]⟩) "en".data =
      [⟨⟨"k".data, [], 0, 5, .flat⟩, none, some .noLocale, none⟩] := by
  decide

/-- Claim C3 — amended.  For every call site whose key yields a truthy
(non-null *and nonempty*) value from the active locale's document lookup,
the result at the same position is `Resolved` (`warningType` null) with
exactly that value — and, since `docs` and `settings` are arbitrary here,
the other-locale fallback search cannot influence the result. -/
theorem classify_resolved_of_truthy
    (calls : List TranslationCall) (translations : JsValue)
    (docs : List Char → Option JsValue) (settings : Option InlangSettings)
    (currentLocale : List Char) (i : Nat) (call : TranslationCall) (v : List Char)
    (hc : calls[i]? = some call)
    (hv : getTranslation translations call.methodName = some v) (hne : v ≠ []) :
    (processTranslationCallsWithWarnings calls translations docs settings
      currentLocale)[i]? = some ⟨call, some v, none, none⟩ := by
  unfold processTranslationCallsWithWarnings
  rw [List.getElem?_map, hc]
  simp [classifyCall, hv, hne]

/-- Claim C3 — witness for `classify_resolved_of_truthy`. -/
theorem classify_resolved_of_truthy_witness :
    (processTranslationCallsWithWarnings [⟨"hello_world".data, [], 0, 15, .flat⟩]
      (.obj [("hello_world".data, .str "Hello World".data)]) (fun _ => none)
      none "en".data)[0]? =
    some ⟨⟨"hello_world".data, [], 0, 15, .flat⟩, some "Hello World".data, none, none⟩ :=
  classify_resolved_of_truthy _ _ _ _ _ 0 _ _ rfl (by decide) (by decide)

/-- Claim C4 — counterexample.  The claim states the resolved locale is
"the `baseLocale` field of the project locale-config file when that file
is present and parseable".  With no override, a workspace open, and a
present, parseable settings file whose `baseLocale` field is the empty
string, the code returns the literal `"en"`, not that field's value: the
truthiness test `inlangSettings && inlangSettings.baseLocale` also
requires the field to be nonempty. -/
theorem getCurrentLocale_empty_baseLocale_counterexample :
    getCurrentLocale none true
        (loadInlangSettings (some (some ⟨some [], none⟩))) = "en".data ∧
    "en".data ≠ ([] : List Char) := by
  decide

/-- Claim C4 — amended.  `getCurrentLocale`, composed with the settings
loader over an explicit file state (missing / malformed / parsed),
coincides with the specification chain: a nonempty explicit override
wins; otherwise, with a workspace open and a present and parseable config
file whose `baseLocale` field is nonempty, that field; otherwise the
literal `"en"`.  Totality of the composition also reflects that a missing
or malformed config file never raises — both are treated as absent
(`loadInlangSettings` maps them to `null`) and the chain falls through. -/
theorem getCurrentLocale_matches_spec (override : Option (List Char))
    (hasWorkspace : Bool) (settingsFile : Option (Option InlangSettings)) :
    getCurrentLocale override hasWorkspace (loadInlangSettings settingsFile) =
      resolveActiveLocaleSpec override hasWorkspace settingsFile := by
  rcases settingsFile with _ | ⟨_ | st⟩ <;>
    rcases override with _ | o <;>
      cases hasWorkspace <;>
        simp [getCurrentLocale, getCurrentLocaleFallback, loadInlangSettings,
          resolveActiveLocaleSpec, resolveSpecBase]

/-- Claim C6.  `findTranslationCalls` is deterministic — two scans of the
same text are identical — and its combined, merged output is sorted by
ascending start offset. -/
theorem findTranslationCalls_deterministic_sorted (text : List Char) :
    findTranslationCalls text = findTranslationCalls text ∧
    List.Pairwise (fun a b => a.start ≤ b.start) (findTranslationCalls text) :=
  ⟨rfl, sortByStart_pairwise _⟩

/-- Claim C7.  Debounce semantics of the per-document scheduler: a burst
of relevant mutations at times `t0 :: ts`, each successive one closer
than the configured delay to its predecessor, produces exactly one
debounced cycle, scheduled at the last mutation time plus the delay (each
mutation cancels the pending timer and starts a fresh one); and a save
event arriving while that timer is pending cancels it and produces
exactly one immediate, un-debounced cycle at the save time. -/
theorem debounceDocumentUpdate_burst (delay t0 : Nat) (ts : List Nat) (s : Nat)
    (hchain : List.Chain (fun a b => a ≤ b ∧ b < a + delay) t0 ts)
    (_hs1 : ts.getLastD t0 ≤ s) (hs2 : s < ts.getLastD t0 + delay) :
    runDebounce delay ((t0 :: ts).map DocEvent.mutation) =
      [(ts.getLastD t0 + delay, .debounced)] ∧
    runDebounce delay ((t0 :: ts).map DocEvent.mutation ++ [DocEvent.save s]) =
      [(s, .immediate)] := by
  constructor
  · show runDebounceEvents delay none ((t0 :: ts).map DocEvent.mutation) = _
    rw [List.map_cons]
    show (firePending none (DocEvent.mutation t0).time).2 ++
      runDebounceEvents delay (some (t0 + delay)) (ts.map DocEvent.mutation) = _
    rw [show ts.map DocEvent.mutation = ts.map DocEvent.mutation ++ [] by simp]
    rw [runDebounceEvents_burst delay ts t0 [] hchain]
    rfl
  · show runDebounceEvents delay none
      ((DocEvent.mutation t0 :: ts.map DocEvent.mutation) ++ [DocEvent.save s]) = _
    show (firePending none (DocEvent.mutation t0).time).2 ++
      runDebounceEvents delay (some (t0 + delay))
        (ts.map DocEvent.mutation ++ [DocEvent.save s]) = _
    rw [runDebounceEvents_burst delay ts t0 [DocEvent.save s] hchain]
    show runDebounceEvents delay (some (ts.getLastD t0 + delay)) [DocEvent.save s] = _
    show (firePending (some (ts.getLastD t0 + delay)) s).2 ++
      (s, CycleKind.immediate) :: runDebounceEvents delay none [] = _
    rw [show firePending (some (ts.getLastD t0 + delay)) s =
      (some (ts.getLastD t0 + delay), []) by
        simp only [firePending]
        rw [if_neg (by omega)]]
    rfl

/-- Claim C7 — witness for `debounceDocumentUpdate_burst`. -/
theorem debounceDocumentUpdate_burst_witness :
    runDebounce 300 ([0, 100, 250].map DocEvent.mutation) = [(550, .debounced)] ∧
    runDebounce 300 ([0, 100, 250].map DocEvent.mutation ++ [DocEvent.save 400]) =
      [(400, .immediate)] :=
  debounceDocumentUpdate_burst 300 0 [100, 250] 400
    (List.Chain.cons (by omega) (List.Chain.cons (by omega) List.Chain.nil))
    (by decide) (by decide)

/-- Claim C10 — counterexample.  The claim states that a prefix segment
holding *any* non-object value is replaced by a fresh empty object before
the final segment is set.  When the prefix holds `null` — a non-object
value in the JSON data model — the replacement guard does not fire
(`typeof null === 'object'` and `null` is not an array), the loop steps
into `null`, and the subsequent assignment throws a `TypeError` (`none`):
nothing is replaced and the write fails. -/
theorem setNestedValue_null_counterexample :
    setNestedValue (.obj [("a".data, .null)]) "a.b".data (.str "v".data) = none := by
  rfl

/-- Claim C10 — amended.  When extraction writes a dotted key into a
document whose first segment holds a non-object value *other than null*
(a string leaf, an array/variant list, a number or a boolean), that value
is replaced by a fresh empty object and the remaining segments are
created as a fresh nested chain with the value at the bottom; the
top-level key set and order are unchanged, and every top-level entry
other than the written prefix keeps its value.  (A null prefix instead
makes the write throw — see the counterexample.) -/
theorem setNestedValue_replaces_nonobject
    (props : List (List Char × JsValue)) (path k1 r : List Char)
    (rs : List (List Char)) (w value : JsValue)
    (hsegs : splitOnDot path = k1 :: r :: rs)
    (hdot : containsDot path = true)
    (hfound : jsGet (.obj props) k1 = some w)
    (hobj : isPlainObject w = false) (hnull : isNullValue w = false) :
    setNestedValue (.obj props) path value =
      some (.obj (jsSetProp props k1 (freshChain r rs value))) ∧
    (jsSetProp props k1 (freshChain r rs value)).map Prod.fst = props.map Prod.fst ∧
    ∀ k, k ≠ k1 →
      jsGet (.obj (jsSetProp props k1 (freshChain r rs value))) k =
        jsGet (.obj props) k := by
  refine ⟨?_, ?_, ?_⟩
  · unfold setNestedValue
    rw [hdot]
    simp only [Bool.not_true, Bool.false_eq_true, if_false]
    rw [hsegs]
    cases w with
    | obj cprops => simp [isPlainObject] at hobj
    | null => simp [isNullValue] at hnull
    | str s =>
      simp only [setNestedPath, hfound, setNestedPath_freshChain, Option.map_some']
    | num n =>
      simp only [setNestedPath, hfound, setNestedPath_freshChain, Option.map_some']
    | bool b =>
      simp only [setNestedPath, hfound, setNestedPath_freshChain, Option.map_some']
    | arr a =>
      simp only [setNestedPath, hfound, setNestedPath_freshChain, Option.map_some']
  · exact jsSetProp_map_fst_of_mem (mem_map_fst_of_jsGet hfound) _
  · intro k hk
    exact jsGet_jsSetProp_ne props k1 k _ hk

/-- Claim C10 — witness for `setNestedValue_replaces_nonobject`. -/
theorem setNestedValue_replaces_nonobject_witness :
    setNestedValue (.obj [("a".data, .str "x".data), ("z".data, .num 1)])
        "a.b.c".data (.str "v".data) =
      some (.obj (jsSetProp [("a".data, .str "x".data), ("z".data, .num 1)]
        "a".data (freshChain "b".data ["c".data] (.str "v".data)))) ∧
    (jsSetProp [("a".data, .str "x".data), ("z".data, .num 1)] "a".data
      (freshChain "b".data ["c".data] (.str "v".data))).map Prod.fst =
      [("a".data, JsValue.str "x".data), ("z".data, JsValue.num 1)].map Prod.fst ∧
    ∀ k, k ≠ "a".data →
      jsGet (.obj (jsSetProp [("a".data, .str "x".data), ("z".data, .num 1)]
        "a".data (freshChain "b".data ["c".data] (.str "v".data)))) k =
        jsGet (.obj [("a".data, .str "x".data), ("z".data, .num 1)]) k :=
  setNestedValue_replaces_nonobject _ _ _ _ _ _ _ (by decide) (by decide) rfl rfl rfl

theorem searchLocales_cons (docs : List Char → Option JsValue)
    (key currentLocale l0 : List Char) (ls : List (List Char)) :
    searchLocales docs key currentLocale (l0 :: ls) =
      if l0 = currentLocale then searchLocales docs key currentLocale ls
      else
        match truthyLookup docs key l0 with
        | some v => some (v, l0)
        | none => searchLocales docs key currentLocale ls := by
  show (if l0 = currentLocale then searchLocales docs key currentLocale ls
      else
        match docs l0 with
        | some translations =>
          if jsTruthy translations then
            match getTranslation translations key with
            | some tv =>
              if tv ≠ [] then some (tv, l0)
              else searchLocales docs key currentLocale ls
            | none => searchLocales docs key currentLocale ls
          else searchLocales docs key currentLocale ls
        | none => searchLocales docs key currentLocale ls) = _
  by_cases h0 : l0 = currentLocale
  · rw [if_pos h0, if_pos h0]
  · rw [if_neg h0, if_neg h0]
    unfold truthyLookup
    cases hd : docs l0 with
    | none => rfl
    | some t =>
      cases ht : jsTruthy t with
      | false => simp [ht]
      | true =>
        simp only [ht, if_true]
        cases hg : getTranslation t key with
        | none => simp only [hg]
        | some v =>
          simp only [hg]
          by_cases hv : v = []
          · simp [hv]
          · simp [hv]

theorem searchLocales_first (docs : List Char → Option JsValue)
    (key currentLocale : List Char) :
    ∀ (ls : List (List Char)) (v l : List Char),
      searchLocales docs key currentLocale ls = some (v, l) →
      l ≠ currentLocale ∧ truthyLookup docs key l = some v ∧
      ∃ i : Nat, ls[i]? = some l ∧ ∀ j : Nat, j < i → ∀ lj, ls[j]? = some lj →
        lj = currentLocale ∨ truthyLookup docs key lj = none := by
  intro ls
  induction ls with
  | nil => intro v l h; exact absurd h (by simp [searchLocales])
  | cons l0 ls' ih =>
    intro v l h
    rw [searchLocales_cons] at h
    by_cases h0 : l0 = currentLocale
    · rw [if_pos h0] at h
      obtain ⟨hne, hT, i, hi, hj⟩ := ih v l h
      refine ⟨hne, hT, i + 1, by simpa using hi, ?_⟩
      intro j hji lj hlj
      cases j with
      | zero =>
        left
        simp only [List.getElem?_cons_zero, Option.some.injEq] at hlj
        rw [← hlj]; exact h0
      | succ j' =>
        rw [List.getElem?_cons_succ] at hlj
        exact hj j' (by omega) lj hlj
    · rw [if_neg h0] at h
      cases hT : truthyLookup docs key l0 with
      | some v0 =>
        rw [hT] at h
        simp only [Option.some.injEq, Prod.mk.injEq] at h
        obtain ⟨hv, hl⟩ := h
        subst hv; subst hl
        exact ⟨h0, hT, 0, by simp, by omega⟩
      | none =>
        rw [hT] at h
        obtain ⟨hne, hT', i, hi, hj⟩ := ih v l h
        refine ⟨hne, hT', i + 1, by simpa using hi, ?_⟩
        intro j hji lj hlj
        cases j with
        | zero =>
          right
          simp only [List.getElem?_cons_zero, Option.some.injEq] at hlj
          rw [← hlj]; exact hT
        | succ j' =>
          rw [List.getElem?_cons_succ] at hlj
          exact hj j' (by omega) lj hlj

theorem truthyLookup_ne_nil {docs : List Char → Option JsValue} {key l v : List Char}
    (h : truthyLookup docs key l = some v) : v ≠ [] := by
  unfold truthyLookup at h
  split at h
  · split at h
    · split at h
      · split at h
        · rename_i v' hv'
          simp only [Option.some.injEq] at h
          rw [← h]
          assumption
        · exact absurd h (by simp)
      · exact absurd h (by simp)
    · exact absurd h (by simp)
  · exact absurd h (by simp)

theorem classifyFallback_spec (docs : List Char → Option JsValue)
    (settings : Option InlangSettings) (currentLocale : List Char)
    (call : TranslationCall) :
    (classifyFallback docs settings currentLocale call).call = call ∧
    (((classifyFallback docs settings currentLocale call).warningType = none ∧
        (classifyFallback docs settings currentLocale call).foundInLocale = none ∧
        ∃ v, (classifyFallback docs settings currentLocale call).translationValue =
          some v ∧ v ≠ []) ∨
     ((classifyFallback docs settings currentLocale call).warningType =
        some .missingLocale ∧
        ∃ v l, (classifyFallback docs settings currentLocale call).translationValue =
          some v ∧ v ≠ [] ∧
          (classifyFallback docs settings currentLocale call).foundInLocale = some l) ∨
     ((classifyFallback docs settings currentLocale call).warningType =
        some .noLocale ∧
        (classifyFallback docs settings currentLocale call).translationValue = none ∧
        (classifyFallback docs settings currentLocale call).foundInLocale = none)) ∧
    ∀ l, (classifyFallback docs settings currentLocale call).foundInLocale = some l →
      l ≠ currentLocale ∧
      (∃ v, (classifyFallback docs settings currentLocale call).translationValue =
        some v ∧ truthyLookup docs call.methodName l = some v) ∧
      ∃ i' : Nat, (availableLocalesOf settings)[i']? = some l ∧
        ∀ j : Nat, j < i' → ∀ lj, (availableLocalesOf settings)[j]? = some lj →
          lj = currentLocale ∨ truthyLookup docs call.methodName lj = none := by
  unfold classifyFallback
  cases hs : searchKeyInAllLocales docs settings call.methodName currentLocale with
  | none =>
    refine ⟨rfl, Or.inr (Or.inr ⟨rfl, rfl, rfl⟩), ?_⟩
    intro l hl
    exact absurd hl (by simp)
  | some p =>
    obtain ⟨tv, loc⟩ := p
    obtain ⟨hne, hT, i', hi', hj⟩ :=
      searchLocales_first docs call.methodName currentLocale
        (availableLocalesOf settings) tv loc hs
    refine ⟨rfl, Or.inr (Or.inl ⟨rfl, tv, loc, rfl, truthyLookup_ne_nil hT, rfl⟩), ?_⟩
    intro l hl
    simp only [Option.some.injEq] at hl
    subst hl
    exact ⟨hne, ⟨tv, rfl, hT⟩, i', hi', hj⟩

/-- Claim C1 — counterexample.  The claim states that, for a
`ResolvedElsewhere` result, the named locale is "the first locale in the
configured locales' declared order whose document yields a *non-null*
lookup for the key".  With locales `["en","es","fr"]`, active locale
`"en"`, the `es` document `{"k": ""}` and the `fr` document `{"k": "x"}`:
the `es` lookup is non-null (the empty string), so the claim demands
`ResolvedElsewhere(es)` — but the code's truthiness test skips the empty
string and names `fr`. -/
theorem processTCW_first_nonnull_counterexample :
    getTranslation (.obj [("k".data, .str [])]) "k".data = some [] ∧
    (processTranslationCallsWithWarnings [⟨"k".data, [], 0, 5, .flat⟩] .null
        (fun l => if l = "es".data then some (.obj [("k".data, .str [])])
                  else if l = "fr".data then some (.obj [("k".data, .str "x".data)])
                  else none)
        (some ⟨none, some ["en".data, "es".data, "fr".data]⟩)
        "en".data).map (·.foundInLocale) = [some "fr".data] ∧
    some "fr".data ≠ some "es".data := by
  decide

/-- Claim C1 — amended.  `processTranslationCallsWithWarnings` returns
exactly one result per input call site, in the same order; each result
carries exactly one of the three statuses — Resolved (`warningType` null,
truthy value, no `foundInLocale`), ResolvedElsewhere (`warningType`
`'missingLocale'`, truthy value, a `foundInLocale`), or Unresolved
(`warningType` `'noLocale'`, null value, no `foundInLocale`); the three
are mutually exclusive since they pin `warningType` to three distinct
values.  Whenever a `foundInLocale` is named, it is never the active
locale and is the first locale in the configured locales' declared order
whose document loads, is truthy, and yields a *truthy (nonempty)* lookup
for the key, the carried value being exactly that lookup's result. -/
theorem processTCW_statuses (calls : List TranslationCall) (translations : JsValue)
    (docs : List Char → Option JsValue) (settings : Option InlangSettings)
    (currentLocale : List Char) :
    (processTranslationCallsWithWarnings calls translations docs settings
      currentLocale).length = calls.length ∧
    ∀ i : Nat, ∀ call : TranslationCall, calls[i]? = some call →
      ∃ r : TranslationResult,
        (processTranslationCallsWithWarnings calls translations docs settings
          currentLocale)[i]? = some r ∧
        r.call = call ∧
        ((r.warningType = none ∧ r.foundInLocale = none ∧
            ∃ v, r.translationValue = some v ∧ v ≠ []) ∨
         (r.warningType = some .missingLocale ∧
            ∃ v l, r.translationValue = some v ∧ v ≠ [] ∧ r.foundInLocale = some l) ∨
         (r.warningType = some .noLocale ∧ r.translationValue = none ∧
            r.foundInLocale = none)) ∧
        ∀ l, r.foundInLocale = some l →
          l ≠ currentLocale ∧
          (∃ v, r.translationValue = some v ∧
            truthyLookup docs call.methodName l = some v) ∧
          ∃ i' : Nat, (availableLocalesOf settings)[i']? = some l ∧
            ∀ j : Nat, j < i' → ∀ lj, (availableLocalesOf settings)[j]? = some lj →
              lj = currentLocale ∨ truthyLookup docs call.methodName lj = none := by
  constructor
  · exact List.length_map calls _
  · intro i call hc
    refine ⟨classifyCall translations docs settings currentLocale call, ?_, ?_⟩
    · unfold processTranslationCallsWithWarnings
      rw [List.getElem?_map, hc]
      rfl
    · unfold classifyCall
      cases hg : getTranslation translations call.methodName with
      | some v =>
        dsimp only
        by_cases hv : v = []
        · rw [if_neg (not_not_intro hv)]
          exact classifyFallback_spec docs settings currentLocale call
        · rw [if_pos hv]
          refine ⟨rfl, Or.inl ⟨rfl, rfl, v, rfl, hv⟩, ?_⟩
          intro l hl
          exact absurd hl (by simp)
      | none =>
        dsimp only
        exact classifyFallback_spec docs settings currentLocale call

/-- Claim C1 — witness for `processTCW_statuses`, at the configuration of
the scenario in the specification. -/
theorem processTCW_statuses_witness :
    (processTranslationCallsWithWarnings [⟨"hello_world".data, [], 0, 15, .flat⟩]
      (.obj [("hello_world".data, .str "Hello World".data)]) (fun _ => none)
      (some ⟨none, some ["en".data]⟩) "en".data).length =
        [(⟨"hello_world".data, [], 0, 15, .flat⟩ : TranslationCall)].length ∧
    ∀ i : Nat, ∀ call : TranslationCall,
      [(⟨"hello_world".data, [], 0, 15, .flat⟩ : TranslationCall)][i]? = some call →
      ∃ r : TranslationResult,
        (processTranslationCallsWithWarnings [⟨"hello_world".data, [], 0, 15, .flat⟩]
          (.obj [("hello_world".data, .str "Hello World".data)]) (fun _ => none)
          (some ⟨none, some ["en".data]⟩) "en".data)[i]? = some r ∧
        r.call = call ∧
        ((r.warningType = none ∧ r.foundInLocale = none ∧
            ∃ v, r.translationValue = some v ∧ v ≠ []) ∨
         (r.warningType = some .missingLocale ∧
            ∃ v l, r.translationValue = some v ∧ v ≠ [] ∧ r.foundInLocale = some l) ∨
         (r.warningType = some .noLocale ∧ r.translationValue = none ∧
            r.foundInLocale = none)) ∧
        ∀ l, r.foundInLocale = some l →
          l ≠ "en".data ∧
          (∃ v, r.translationValue = some v ∧
            truthyLookup (fun _ => none) call.methodName l = some v) ∧
          ∃ i' : Nat, (availableLocalesOf (some ⟨none, some ["en".data]⟩))[i']? = some l ∧
            ∀ j : Nat, j < i' → ∀ lj,
              (availableLocalesOf (some ⟨none, some ["en".data]⟩))[j]? = some lj →
              lj = "en".data ∨ truthyLookup (fun _ => none) call.methodName lj = none :=
  processTCW_statuses _ _ _ _ _

theorem jsSetProp_map_fst_of_not_mem :
    ∀ {props : List (List Char × JsValue)} {k : List Char},
      k ∉ props.map Prod.fst → ∀ v : JsValue,
      (jsSetProp props k v).map Prod.fst = props.map Prod.fst ++ [k] := by
  intro props
  induction props with
  | nil => intro k _ v; rfl
  | cons p rest ih =>
    intro k h v
    rw [List.map_cons, List.mem_cons] at h
    push_neg at h
    obtain ⟨h1, h2⟩ := h
    have hne : ¬ p.1 = k := fun hh => h1 hh.symm
    rw [show jsSetProp (p :: rest) k v = p :: jsSetProp rest k v by
      simp [jsSetProp, hne]]
    simp only [List.map_cons, ih h2 v, List.cons_append]

theorem jsGet_jsSetProp_self :
    ∀ (props : List (List Char × JsValue)) (k : List Char) (v : JsValue),
      jsGet (.obj (jsSetProp props k v)) k = some v := by
  intro props
  induction props with
  | nil =>
    intro k v
    show (List.find? (fun p : List Char × JsValue => p.1 = k) [(k, v)]).map (·.2) = some v
    rw [List.find?_cons_of_pos _ (by simp)]
    rfl
  | cons p rest ih =>
    intro k v
    by_cases hp : p.1 = k
    · rw [show jsSetProp (p :: rest) k v = (k, v) :: rest by simp [jsSetProp, hp]]
      show (List.find? (fun q : List Char × JsValue => q.1 = k) ((k, v) :: rest)).map (·.2) =
        some v
      rw [List.find?_cons_of_pos _ (by simp)]
      rfl
    · rw [show jsSetProp (p :: rest) k v = p :: jsSetProp rest k v by simp [jsSetProp, hp]]
      show (List.find? (fun q : List Char × JsValue => q.1 = k)
        (p :: jsSetProp rest k v)).map (·.2) = some v
      rw [List.find?_cons_of_neg _ (by simp [hp])]
      exact ih k v

theorem stringifyTopKeys_no_index {props : List (List Char × JsValue)}
    (h : ∀ k ∈ props.map Prod.fst, isArrayIndexKey k = false) :
    stringifyTopKeys (.obj props) = props.map Prod.fst := by
  have h1 : props.filter (fun p => isArrayIndexKey p.1) = [] := by
    rw [List.filter_eq_nil_iff]
    intro p hp
    simp only [Bool.not_eq_true]
    exact h p.1 (List.mem_map_of_mem Prod.fst hp)
  have h2 : props.filter (fun p => !isArrayIndexKey p.1) = props := by
    rw [List.filter_eq_self]
    intro p hp
    simp only [Bool.not_eq_true']
    exact h p.1 (List.mem_map_of_mem Prod.fst hp)
  show (jsOwnKeysOrder props).map (·.1) = props.map Prod.fst
  unfold jsOwnKeysOrder
  rw [h1, h2]
  rfl

theorem updateLocaleFileDoc_flat (f : Option JsValue) (key : List Char) (v : JsValue)
    (hflat : containsDot key = false)
    (hshape : f = none ∨ ∃ ps, f = some (.obj ps)) :
    updateLocaleFileDoc f key v = some (.obj (jsSetProp (objPropsOf f) key v)) := by
  rcases hshape with h | ⟨ps, h⟩ <;> subst h <;>
    simp [updateLocaleFileDoc, setNestedValue, hflat, setNestedAssign, objPropsOf]

theorem addLocalesGo_spec (base key : List Char) (hflat : containsDot key = false) :
    ∀ (ls : List (List Char)) (files : List Char → Option JsValue),
      ls.Nodup →
      (∀ l ∈ ls, l ≠ base → files l = none ∨ ∃ ps, files l = some (.obj ps)) →
      ∃ final : List Char → Option JsValue,
        addLocalesGo base key ls files = some final ∧
        (∀ l ∈ ls, l ≠ base →
          final l = some (.obj (jsSetProp (objPropsOf (files l)) key (.str [])))) ∧
        (∀ l, l ∉ ls ∨ l = base → final l = files l) := by
  intro ls
  induction ls with
  | nil =>
    intro files _ _
    exact ⟨files, rfl, by simp, fun l _ => rfl⟩
  | cons l0 rest ih =>
    intro files hnodup hshape
    rw [List.nodup_cons] at hnodup
    obtain ⟨hl0, hnodup'⟩ := hnodup
    by_cases h0 : l0 = base
    · rw [show addLocalesGo base key (l0 :: rest) files =
        addLocalesGo base key rest files by
          simp [addLocalesGo, h0]]
      obtain ⟨final, hrun, hw, hu⟩ := ih files hnodup'
        (fun l hl hlb => hshape l (List.mem_cons_of_mem l0 hl) hlb)
      refine ⟨final, hrun, ?_, ?_⟩
      · intro l hl hlb
        rcases List.mem_cons.mp hl with rfl | hl
        · exact absurd h0 hlb
        · exact hw l hl hlb
      · intro l hl
        rcases hl with hl | hl
        · exact hu l (Or.inl (fun hh => hl (List.mem_cons_of_mem l0 hh)))
        · exact hu l (Or.inr hl)
    · have hsh0 := hshape l0 (List.mem_cons_self l0 rest) h0
      have hwrite : writeLocale files l0 key (.str []) =
          some (fun l => if l = l0
            then some (.obj (jsSetProp (objPropsOf (files l0)) key (.str [])))
            else files l) := by
        unfold writeLocale
        rw [updateLocaleFileDoc_flat (files l0) key (.str []) hflat hsh0]
      rw [show addLocalesGo base key (l0 :: rest) files =
        (match writeLocale files l0 key (.str []) with
         | some files2 => addLocalesGo base key rest files2
         | none => none) by simp [addLocalesGo, h0]]
      rw [hwrite]
      set files2 : List Char → Option JsValue := fun l =>
        if l = l0 then some (.obj (jsSetProp (objPropsOf (files l0)) key (.str [])))
        else files l with hfiles2
      have hshape2 : ∀ l ∈ rest, l ≠ base →
          files2 l = none ∨ ∃ ps, files2 l = some (.obj ps) := by
        intro l hl hlb
        have hne : l ≠ l0 := fun hh => hl0 (hh ▸ hl)
        rw [hfiles2]
        simp only [if_neg hne]
        exact hshape l (List.mem_cons_of_mem l0 hl) hlb
      obtain ⟨final, hrun, hw, hu⟩ := ih files2 hnodup' hshape2
      refine ⟨final, hrun, ?_, ?_⟩
      · intro l hl hlb
        rcases List.mem_cons.mp hl with rfl | hl
        · rw [hu l (Or.inl hl0), hfiles2]
          simp
        · have hne : l ≠ l0 := fun hh => hl0 (hh ▸ hl)
          rw [hw l hl hlb, hfiles2]
          simp [hne]
      · intro l hl
        have hne : l ≠ l0 := by
          rcases hl with hl | hl
          · exact fun hh => hl (hh ▸ List.mem_cons_self l0 rest)
          · exact fun hh => h0 (hh ▸ hl)
        have : final l = files2 l := by
          rcases hl with hl | hl
          · exact hu l (Or.inl (fun hh => hl (List.mem_cons_of_mem l0 hh)))
          · exact hu l (Or.inr hl)
        rw [this, hfiles2]
        simp [hne]

/-- Claim C8 — counterexample.  The claim states that "in each written
file the existing top-level keys keep their original order … for every
starting key set, existing keys are never reordered".  A locale file with
textual key order `["b","1"]` is parsed, updated and re-serialized by the
JSON round-trip, which places array-index-like keys such as `"1"` first:
the written file's key order is `["1","b","newKey"]` — the existing keys
`b` and `1` have been reordered. -/
theorem addToLocaleFiles_integer_key_counterexample :
    ((addToLocaleFiles (some ⟨some "en".data, some ["en".data]⟩)
        (fun l => if l = "en".data
          then some (.obj [("b".data, .str "x".data), ("1".data, .str "y".data)])
          else none)
        "newKey".data "v".data).map
      (fun final => (final "en".data).map stringifyTopKeys)) =
      some (some ["1".data, "b".data, "newKey".data]) ∧
    (["1".data, "b".data, "newKey".data] : List (List Char)) ≠
      ["b".data, "1".data, "newKey".data] := by
  decide

/-- Claim C8 — amended.  For a fresh flat non-array-index key, on locale
files that are missing or hold objects with no array-index-like keys,
extraction writes to every configured locale's file: the base locale
receives the real value and every other configured locale the
empty-string placeholder under the same key; in each written file the
existing top-level keys keep their original order with the new key
appended at the end; files of unconfigured locales are untouched.
(Array-index-like keys — canonical numeric strings — are grouped first in
ascending order by the JavaScript JSON round-trip, so files containing
them can be reordered: see the counterexample.) -/
theorem addToLocaleFiles_spec
    (settings : Option InlangSettings) (files : List Char → Option JsValue)
    (key value : List Char)
    (hflat : containsDot key = false)
    (hkeyidx : isArrayIndexKey key = false)
    (hshape : ∀ l, files l = none ∨ ∃ ps, files l = some (.obj ps))
    (hnoidx : ∀ l ps, files l = some (.obj ps) →
      ∀ k ∈ ps.map Prod.fst, isArrayIndexKey k = false)
    (hfresh : ∀ l ps, files l = some (.obj ps) → key ∉ ps.map Prod.fst)
    (hnodup : (availableLocalesOf settings).Nodup) :
    ∃ final : List Char → Option JsValue,
      addToLocaleFiles settings files key value = some final ∧
      (final (baseLocaleOf settings) =
        some (.obj (jsSetProp (objPropsOf (files (baseLocaleOf settings))) key
          (.str value))) ∧
       jsGet (.obj (jsSetProp (objPropsOf (files (baseLocaleOf settings))) key
         (.str value))) key = some (.str value) ∧
       stringifyTopKeys (.obj (jsSetProp (objPropsOf (files (baseLocaleOf settings)))
         key (.str value))) =
         (objPropsOf (files (baseLocaleOf settings))).map Prod.fst ++ [key]) ∧
      (∀ l, l ∈ availableLocalesOf settings → l ≠ baseLocaleOf settings →
        final l = some (.obj (jsSetProp (objPropsOf (files l)) key (.str []))) ∧
        jsGet (.obj (jsSetProp (objPropsOf (files l)) key (.str []))) key =
          some (.str []) ∧
        stringifyTopKeys (.obj (jsSetProp (objPropsOf (files l)) key (.str []))) =
          (objPropsOf (files l)).map Prod.fst ++ [key]) ∧
      (∀ l, l ≠ baseLocaleOf settings → l ∉ availableLocalesOf settings →
        final l = files l) := by
  have hkeys : ∀ (l : List Char) (w : JsValue),
      (jsSetProp (objPropsOf (files l)) key w).map Prod.fst =
        (objPropsOf (files l)).map Prod.fst ++ [key] := by
    intro l w
    rcases hshape l with h | ⟨ps, h⟩
    · rw [h]; rfl
    · rw [h]
      exact jsSetProp_map_fst_of_not_mem (hfresh l ps h) w
  have hnoidx' : ∀ l w, ∀ k ∈ (jsSetProp (objPropsOf (files l)) key w).map Prod.fst,
      isArrayIndexKey k = false := by
    intro l w k hk
    rw [hkeys l w, List.mem_append] at hk
    rcases hk with hk | hk
    · rcases hshape l with h | ⟨ps, h⟩
      · rw [h] at hk; simp [objPropsOf] at hk
      · rw [h] at hk
        exact hnoidx l ps h k hk
    · simp only [List.mem_singleton] at hk
      rw [hk]; exact hkeyidx
  have hstr : ∀ l w,
      stringifyTopKeys (.obj (jsSetProp (objPropsOf (files l)) key w)) =
        (objPropsOf (files l)).map Prod.fst ++ [key] := by
    intro l w
    rw [stringifyTopKeys_no_index (hnoidx' l w), hkeys l w]
  have hwrite : writeLocale files (baseLocaleOf settings) key (.str value) =
      some (fun l => if l = baseLocaleOf settings
        then some (.obj (jsSetProp (objPropsOf (files (baseLocaleOf settings))) key
          (.str value)))
        else files l) := by
    unfold writeLocale
    rw [updateLocaleFileDoc_flat _ key (.str value) hflat (hshape (baseLocaleOf settings))]
  set files1 : List Char → Option JsValue := fun l =>
    if l = baseLocaleOf settings
    then some (.obj (jsSetProp (objPropsOf (files (baseLocaleOf settings))) key
      (.str value)))
    else files l with hfiles1
  have hshape1 : ∀ l ∈ availableLocalesOf settings, l ≠ baseLocaleOf settings →
      files1 l = none ∨ ∃ ps, files1 l = some (.obj ps) := by
    intro l _ hlb
    rw [hfiles1]
    simp only [if_neg hlb]
    exact hshape l
  obtain ⟨final, hrun, hw, hu⟩ :=
    addLocalesGo_spec (baseLocaleOf settings) key hflat
      (availableLocalesOf settings) files1 hnodup hshape1
  refine ⟨final, ?_, ?_, ?_, ?_⟩
  · unfold addToLocaleFiles
    rw [hwrite]
    exact hrun
  · refine ⟨?_, jsGet_jsSetProp_self _ key (.str value), hstr _ (.str value)⟩
    rw [hu (baseLocaleOf settings) (Or.inr rfl), hfiles1]
    simp
  · intro l hl hlb
    refine ⟨?_, jsGet_jsSetProp_self _ key (.str []), hstr _ (.str [])⟩
    rw [hw l hl hlb, hfiles1]
    simp [hlb]
  · intro l hlb hl
    rw [hu l (Or.inl hl), hfiles1]
    simp [hlb]

/-- Claim C8 — witness for `addToLocaleFiles_spec`, at a configuration
with base locale `en`, configured locales `["en","es"]` and no existing
locale files. -/
theorem addToLocaleFiles_spec_witness :
    ∃ final : List Char → Option JsValue,
      addToLocaleFiles (some ⟨some "en".data, some ["en".data, "es".data]⟩)
        (fun _ => none) "newKey".data "v".data = some final ∧
      (final (baseLocaleOf (some ⟨some "en".data, some ["en".data, "es".data]⟩)) =
        some (.obj (jsSetProp (objPropsOf ((fun _ => none)
          (baseLocaleOf (some ⟨some "en".data, some ["en".data, "es".data]⟩))))
          "newKey".data (.str "v".data))) ∧
       jsGet (.obj (jsSetProp (objPropsOf ((fun _ => none)
         (baseLocaleOf (some ⟨some "en".data, some ["en".data, "es".data]⟩))))
         "newKey".data (.str "v".data))) "newKey".data = some (.str "v".data) ∧
       stringifyTopKeys (.obj (jsSetProp (objPropsOf ((fun _ => none)
         (baseLocaleOf (some ⟨some "en".data, some ["en".data, "es".data]⟩))))
         "newKey".data (.str "v".data))) =
         (objPropsOf ((fun _ => none)
           (baseLocaleOf (some ⟨some "en".data, some ["en".data, "es".data]⟩)))).map
             Prod.fst ++ ["newKey".data]) ∧
      (∀ l, l ∈ availableLocalesOf (some ⟨some "en".data, some ["en".data, "es".data]⟩) →
        l ≠ baseLocaleOf (some ⟨some "en".data, some ["en".data, "es".data]⟩) →
        final l = some (.obj (jsSetProp (objPropsOf ((fun _ => none) l))
          "newKey".data (.str []))) ∧
        jsGet (.obj (jsSetProp (objPropsOf ((fun _ => none) l)) "newKey".data
          (.str []))) "newKey".data = some (.str []) ∧
        stringifyTopKeys (.obj (jsSetProp (objPropsOf ((fun _ => none) l))
          "newKey".data (.str []))) =
          (objPropsOf ((fun _ => none) l)).map Prod.fst ++ ["newKey".data]) ∧
      (∀ l, l ≠ baseLocaleOf (some ⟨some "en".data, some ["en".data, "es".data]⟩) →
        l ∉ availableLocalesOf (some ⟨some "en".data, some ["en".data, "es".data]⟩) →
        final l = (fun _ => none) l) :=
  addToLocaleFiles_spec (some ⟨some "en".data, some ["en".data, "es".data]⟩)
    (fun _ => none) "newKey".data "v".data (by decide) (by decide)
    (fun _ => Or.inl rfl) (fun _ ps hl => absurd hl (by simp))
    (fun _ ps hl => absurd hl (by simp)) (by decide)

theorem matchCallTail_shape {l g rest : List Char}
    (h : matchCallTail l = some (g, rest)) :
    ∃ w1 w2 : List Char,
      l = w1 ++ '(' :: (w2 ++ (g ++ ')' :: rest)) ∧
      (∀ ch ∈ w1, isJsSpace ch = true) ∧
      (∀ ch ∈ w2, isJsSpace ch = true) ∧
      (∀ ch ∈ g, (ch != ')') = true) := by
  unfold matchCallTail at h
  split at h
  · rename_i c l2 heq1
    split at h
    · rename_i hc
      split at h
      · rename_i d l5 heq2
        split at h
        · rename_i hd
          simp only [Option.some.injEq, Prod.mk.injEq] at h
          obtain ⟨hg, hr⟩ := h
          subst hc
          subst hd
          subst hr
          refine ⟨l.takeWhile isJsSpace, l2.takeWhile isJsSpace, ?_, ?_, ?_, ?_⟩
          · conv_lhs => rw [← List.takeWhile_append_dropWhile isJsSpace l]
            rw [heq1]
            congr 1
            simp only [List.cons.injEq, true_and]
            conv_lhs => rw [← List.takeWhile_append_dropWhile isJsSpace l2]
            congr 1
            rw [← hg]
            conv_lhs => rw [← List.takeWhile_append_dropWhile
              (fun x => x != ')') (l2.dropWhile isJsSpace)]
            rw [heq2]
          · exact fun ch hch => List.mem_takeWhile_imp hch
          · exact fun ch hch => List.mem_takeWhile_imp hch
          · rw [← hg]
            exact fun ch hch => @List.mem_takeWhile_imp _ (fun x => x != ')') _ _ hch
        · exact absurd h (by simp)
      · exact absurd h (by simp)
    · exact absurd h (by simp)
  · exact absurd h (by simp)

theorem matchFlat_shape {p : Bool} {l ident g rest : List Char}
    (h : matchFlat p l = some (ident, g, rest)) :
    ident ≠ [] ∧ ∃ tail : List Char,
      l = 'm' :: '.' :: (ident ++ tail) ∧ matchCallTail tail = some (g, rest) := by
  unfold matchFlat at h
  split at h
  · rename_i a b c l3
    split at h
    · exact absurd h (by simp)
    · split at h
      · rename_i hp hcond
        obtain ⟨ha, hb, hstart⟩ := hcond
        subst ha; subst hb
        rcases heq2 : matchCallTail (l3.dropWhile isIdentChar) with _ | ⟨g', rest'⟩ <;>
          rw [heq2] at h
        · exact absurd h (by simp)
        · simp only [Option.some.injEq, Prod.mk.injEq] at h
          obtain ⟨hi, hg, hr⟩ := h
          subst hi; subst hg; subst hr
          refine ⟨by simp, l3.dropWhile isIdentChar, ?_, heq2⟩
          simp only [List.cons.injEq, true_and, List.cons_append]
          rw [List.takeWhile_append_dropWhile]
      · exact absurd h (by simp)
  all_goals exact absurd h (by simp)

theorem mem_take_of_le_takeWhile {p : Char → Bool} :
    ∀ (l : List Char) (j : Nat), j ≤ (l.takeWhile p).length →
      ∀ ch ∈ l.take j, p ch = true := by
  intro l
  induction l with
  | nil => intro j _ ch hch; simp at hch
  | cons a as ih =>
    intro j hj ch hch
    cases j with
    | zero => simp at hch
    | succ j' =>
      by_cases hpa : p a
      · rw [List.takeWhile_cons_of_pos hpa, List.length_cons] at hj
        rw [List.take_succ_cons, List.mem_cons] at hch
        rcases hch with rfl | hch
        · exact hpa
        · exact ih j' (by omega) ch hch
      · rw [List.takeWhile_cons_of_neg hpa] at hj
        simp at hj

theorem matchNestedKey_shape {q : Char} {l3 key g rest : List Char} :
    ∀ {n : Nat}, n ≤ (l3.takeWhile (fun c => c != '\'' && c != '"')).length →
      matchNestedKey q l3 n = some (key, g, rest) →
      key ≠ [] ∧ (∀ ch ∈ key, ¬ ch = '\'' ∧ ¬ ch = '"') ∧
      ∃ l4 : List Char, l3 = key ++ q :: ']' :: l4 ∧ matchCallTail l4 = some (g, rest) := by
  intro n
  induction n with
  | zero => intro _ h; exact absurd h (by simp [matchNestedKey])
  | succ n ih =>
    intro hn h
    unfold matchNestedKey at h
    split at h
    · rename_i q' b l4 heq1
      split at h
      · rename_i hqb
        obtain ⟨hq, hb⟩ := hqb
        subst hq; subst hb
        rcases heq2 : matchCallTail l4 with _ | ⟨g', rest'⟩ <;> rw [heq2] at h
        · exact ih (by omega) h
        · simp only [Option.some.injEq, Prod.mk.injEq] at h
          obtain ⟨hk, hg, hr⟩ := h
          subst hg; subst hr
          have hlen : n + 1 ≤ l3.length := by
            have : (l3.drop (n + 1)).length = l3.length - (n + 1) := List.length_drop _ _
            rw [heq1] at this
            simp only [List.length_cons] at this
            omega
          refine ⟨?_, ?_, l4, ?_, heq2⟩
          · rw [← hk]
            intro hnil
            have : (l3.take (n + 1)).length = 0 := by rw [hnil]; rfl
            rw [List.length_take] at this
            omega
          · intro ch hch
            rw [← hk] at hch
            have := mem_take_of_le_takeWhile l3 (n + 1) hn ch hch
            constructor
            · intro hc; rw [hc] at this; simp at this
            · intro hc; rw [hc] at this; simp at this
          · rw [← hk]
            conv_lhs => rw [← List.take_append_drop (n + 1) l3]
            rw [heq1]
      · exact ih (by omega) h
    · exact ih (by omega) h

theorem matchNested_shape {p : Bool} {l : List Char} {q : Char} {key g rest : List Char}
    (h : matchNested p l = some (q, key, g, rest)) :
    (q = '\'' ∨ q = '"' ∨ q = backQuoteChar) ∧ key ≠ [] ∧
    (∀ ch ∈ key, ¬ ch = '\'' ∧ ¬ ch = '"') ∧
    ∃ l4 : List Char,
      l = 'm' :: '[' :: q :: (key ++ q :: ']' :: l4) ∧
      matchCallTail l4 = some (g, rest) := by
  unfold matchNested at h
  split at h
  · rename_i a b q0 l3
    split at h
    · exact absurd h (by simp)
    · split at h
      · rename_i hp hcond
        obtain ⟨ha, hb, hquote⟩ := hcond
        subst ha; subst hb
        rcases heq2 : matchNestedKey q0 l3
            (l3.takeWhile (fun c => c != '\'' && c != '"')).length
          with _ | ⟨k', g', rest'⟩ <;> rw [heq2] at h
        · exact absurd h (by simp)
        · simp only [Option.map_some', Option.some.injEq, Prod.mk.injEq] at h
          obtain ⟨hq, hk, hg, hr⟩ := h
          subst hq; subst hk; subst hg; subst hr
          obtain ⟨hne, hchars, l4, hdec, htail⟩ :=
            matchNestedKey_shape (Nat.le_refl _) heq2
          exact ⟨hquote, hne, hchars, l4, by rw [hdec], htail⟩
      · exact absurd h (by simp)
  all_goals exact absurd h (by simp)

theorem matchFlat_suffix {p : Bool} {l ident g rest : List Char}
    (h : matchFlat p l = some (ident, g, rest)) : ∃ X : List Char, l = X ++ rest := by
  obtain ⟨-, tail, hl, htail⟩ := matchFlat_shape h
  obtain ⟨w1, w2, hl4, -, -, -⟩ := matchCallTail_shape htail
  refine ⟨'m' :: '.' :: (ident ++ (w1 ++ '(' :: (w2 ++ (g ++ [')'])))), ?_⟩
  rw [hl, hl4]
  simp

theorem matchNested_suffix {p : Bool} {l : List Char} {q : Char} {key g rest : List Char}
    (h : matchNested p l = some (q, key, g, rest)) : ∃ X : List Char, l = X ++ rest := by
  obtain ⟨-, -, -, l4, hl, htail⟩ := matchNested_shape h
  obtain ⟨w1, w2, hl4, -, -, -⟩ := matchCallTail_shape htail
  refine ⟨'m' :: '[' :: q :: (key ++ q :: ']' :: (w1 ++ '(' :: (w2 ++ (g ++ [')'])))), ?_⟩
  rw [hl, hl4]
  simp

theorem scanNestedFuel_sound :
    ∀ (fuel : Nat) (prev : Bool) (pos : Nat) (text : List Char) (c : TranslationCall),
      c ∈ scanNestedFuel fuel prev pos (text.drop pos) →
      c.keyType = .nested ∧
      ∃ q tail g rest,
        (q = '\'' ∨ q = '"' ∨ q = backQuoteChar) ∧
        text.drop c.start = 'm' :: '[' :: q :: (c.methodName ++ q :: ']' :: tail) ∧
        c.methodName ≠ [] ∧
        (∀ ch ∈ c.methodName, ¬ ch = '\'' ∧ ¬ ch = '"') ∧
        matchCallTail tail = some (g, rest) ∧
        c.params = jsTrim g ∧
        c.endPos = c.start + ((text.drop c.start).length - rest.length) := by
  intro fuel
  induction fuel with
  | zero =>
    intro prev pos text c hc
    exact absurd hc (by simp [scanNestedFuel])
  | succ fuel ih =>
    intro prev pos text c hc
    cases hdrop : text.drop pos with
    | nil =>
      rw [hdrop] at hc
      exact absurd hc (by simp [scanNestedFuel])
    | cons c0 rest0 =>
      rw [hdrop] at hc
      rw [show scanNestedFuel (fuel + 1) prev pos (c0 :: rest0) =
        (match matchNested prev (c0 :: rest0) with
         | some (_, key, g, after) =>
           ({ methodName := key, params := jsTrim g, start := pos,
              endPos := pos + ((c0 :: rest0).length - after.length),
              keyType := .nested } : TranslationCall)
             :: scanNestedFuel fuel false (pos + ((c0 :: rest0).length - after.length)) after
         | none => scanNestedFuel fuel (isWordChar c0) (pos + 1) rest0) from rfl] at hc
      cases hm : matchNested prev (c0 :: rest0) with
      | none =>
        rw [hm] at hc
        have hdrop1 : text.drop (pos + 1) = rest0 := by
          rw [← List.drop_drop 1 pos text, hdrop]
          rfl
        rw [← hdrop1] at hc
        exact ih (isWordChar c0) (pos + 1) text c hc
      | some res =>
        obtain ⟨q, key, g, after⟩ := res
        rw [hm] at hc
        rcases List.mem_cons.mp hc with rfl | hc
        · obtain ⟨hquote, hne, hchars, l4, hdec, htail⟩ := matchNested_shape hm
          refine ⟨rfl, q, l4, g, after, hquote, ?_, hne, hchars, htail, rfl, ?_⟩
          · show text.drop pos = _
            rw [hdrop]
            exact hdec
          · show pos + ((c0 :: rest0).length - after.length) =
              pos + ((text.drop pos).length - after.length)
            rw [hdrop]
        · obtain ⟨X, hX⟩ := matchNested_suffix hm
          have hlen : (c0 :: rest0).length - after.length = X.length := by
            have : (c0 :: rest0).length = X.length + after.length := by
              rw [hX]; simp
            omega
          have hdropafter :
              text.drop (pos + ((c0 :: rest0).length - after.length)) = after := by
            rw [hlen, ← List.drop_drop X.length pos text, hdrop, hX, List.drop_left]
          exact ih false (pos + ((c0 :: rest0).length - after.length)) text c
            (by rw [hdropafter]; exact hc)

theorem scanFlatFuel_sound :
    ∀ (fuel : Nat) (prev : Bool) (pos : Nat) (text : List Char) (c : TranslationCall),
      c ∈ scanFlatFuel fuel prev pos (text.drop pos) →
      c.keyType = .flat ∧
      ∃ tail g rest,
        text.drop c.start = 'm' :: '.' :: (c.methodName ++ tail) ∧
        c.methodName ≠ [] ∧
        matchCallTail tail = some (g, rest) ∧
        c.params = jsTrim g ∧
        c.endPos = c.start + ((text.drop c.start).length - rest.length) := by
  intro fuel
  induction fuel with
  | zero =>
    intro prev pos text c hc
    exact absurd hc (by simp [scanFlatFuel])
  | succ fuel ih =>
    intro prev pos text c hc
    cases hdrop : text.drop pos with
    | nil =>
      rw [hdrop] at hc
      exact absurd hc (by simp [scanFlatFuel])
    | cons c0 rest0 =>
      rw [hdrop] at hc
      rw [show scanFlatFuel (fuel + 1) prev pos (c0 :: rest0) =
        (match matchFlat prev (c0 :: rest0) with
         | some (ident, g, after) =>
           ({ methodName := ident, params := jsTrim g, start := pos,
              endPos := pos + ((c0 :: rest0).length - after.length),
              keyType := .flat } : TranslationCall)
             :: scanFlatFuel fuel false (pos + ((c0 :: rest0).length - after.length)) after
         | none => scanFlatFuel fuel (isWordChar c0) (pos + 1) rest0) from rfl] at hc
      cases hm : matchFlat prev (c0 :: rest0) with
      | none =>
        rw [hm] at hc
        have hdrop1 : text.drop (pos + 1) = rest0 := by
          rw [← List.drop_drop 1 pos text, hdrop]
          rfl
        rw [← hdrop1] at hc
        exact ih (isWordChar c0) (pos + 1) text c hc
      | some res =>
        obtain ⟨ident, g, after⟩ := res
        rw [hm] at hc
        rcases List.mem_cons.mp hc with rfl | hc
        · obtain ⟨hne, tail, hdec, htail⟩ := matchFlat_shape hm
          refine ⟨rfl, tail, g, after, ?_, hne, htail, rfl, ?_⟩
          · show text.drop pos = _
            rw [hdrop]
            exact hdec
          · show pos + ((c0 :: rest0).length - after.length) =
              pos + ((text.drop pos).length - after.length)
            rw [hdrop]
        · obtain ⟨X, hX⟩ := matchFlat_suffix hm
          have hlen : (c0 :: rest0).length - after.length = X.length := by
            have : (c0 :: rest0).length = X.length + after.length := by
              rw [hX]; simp
            omega
          have hdropafter :
              text.drop (pos + ((c0 :: rest0).length - after.length)) = after := by
            rw [hlen, ← List.drop_drop X.length pos text, hdrop, hX, List.drop_left]
          exact ih false (pos + ((c0 :: rest0).length - after.length)) text c
            (by rw [hdropafter]; exact hc)

theorem jsTrim_append_spaces {ws g : List Char} (h : ∀ ch ∈ ws, isJsSpace ch = true) :
    jsTrim (ws ++ g) = jsTrim g := by
  unfold jsTrim
  have hdw : (ws ++ g).dropWhile isJsSpace = g.dropWhile isJsSpace := by
    rw [List.dropWhile_append]
    rw [show ws.dropWhile isJsSpace = [] from List.dropWhile_eq_nil_iff.mpr h]
    rfl
  rw [hdw]

theorem paramsShape_of_tail {text : List Char} {c : TranslationCall}
    {P tail g rest : List Char}
    (hdec : text.drop c.start = P ++ tail)
    (htail : matchCallTail tail = some (g, rest))
    (hparams : c.params = jsTrim g)
    (hend : c.endPos = c.start + ((text.drop c.start).length - rest.length)) :
    ∃ d1 mid rest' : List Char,
      text.drop c.start = d1 ++ '(' :: (mid ++ ')' :: rest') ∧
      (∀ ch ∈ mid, ¬ ch = ')') ∧
      c.params = jsTrim mid ∧
      c.endPos = c.start + d1.length + 1 + mid.length + 1 := by
  obtain ⟨w1, w2, hl, hw1, hw2, hg⟩ := matchCallTail_shape htail
  refine ⟨P ++ w1, w2 ++ g, rest, ?_, ?_, ?_, ?_⟩
  · rw [hdec, hl]
    simp
  · intro ch hch
    rcases List.mem_append.mp hch with hch | hch
    · have hsp := hw2 ch hch
      intro hcp
      rw [hcp] at hsp
      exact absurd hsp (by decide)
    · have hnp := hg ch hch
      intro hcp
      rw [hcp] at hnp
      simp at hnp
  · rw [hparams, jsTrim_append_spaces hw2]
  · rw [hend, hdec, hl]
    simp only [List.length_append, List.length_cons]
    omega

/-- Claim C5 — counterexample.  The claim states the bracket call form is
recognized "double-quoted or single-quoted only — … no other quoting of
the bracket form is recognized as a call site".  The quote class of the
bracket regex also contains the backtick: a backtick-quoted bracket call
is scanned as a call site. -/
theorem findTranslationCalls_backtick_counterexample :
    findTranslationCalls ("m[".data ++ [backQuoteChar] ++ "k".data ++
        [backQuoteChar] ++ "]()".data) =
      [⟨"k".data, [], 0, 8, .nested⟩] ∧
    backQuoteChar ≠ '"' ∧ backQuoteChar ≠ '\'' := by
  decide

/-- Claim C5 — amended.  Every bracket-form call site the scanner
produces comes from text of the shape `m[<q><key><q>](<args>)` at its
start offset, where the quote `<q>` is a double quote, single quote *or
backtick*, and the key — taken verbatim as the call's key — is a
nonempty string containing neither single nor double quotes (of either
kind, regardless of the quote used); the bracket is followed by the
parenthesized argument tail, and the match extends exactly to its closing
parenthesis. -/
theorem findTranslationCalls_nested_sound (text : List Char) (c : TranslationCall)
    (hmem : c ∈ findTranslationCalls text) (hkt : c.keyType = .nested) :
    ∃ q tail g rest,
      (q = '\'' ∨ q = '"' ∨ q = backQuoteChar) ∧
      text.drop c.start = 'm' :: '[' :: q :: (c.methodName ++ q :: ']' :: tail) ∧
      c.methodName ≠ [] ∧
      (∀ ch ∈ c.methodName, ¬ ch = '\'' ∧ ¬ ch = '"') ∧
      matchCallTail tail = some (g, rest) ∧
      c.params = jsTrim g ∧
      c.endPos = c.start + ((text.drop c.start).length - rest.length) := by
  unfold findTranslationCalls at hmem
  rw [mem_sortByStart, List.mem_append] at hmem
  rcases hmem with hmem | hmem
  · have hflat := (scanFlatFuel_sound text.length false 0 text c hmem).1
    rw [hkt] at hflat
    exact absurd hflat (by simp)
  · exact (scanNestedFuel_sound text.length false 0 text c hmem).2

/-- Claim C5 — witness for `findTranslationCalls_nested_sound`. -/
theorem findTranslationCalls_nested_sound_witness :
    ∃ q tail g rest,
      (q = '\'' ∨ q = '"' ∨ q = backQuoteChar) ∧
      ("m['ab'](x)".data).drop 0 = 'm' :: '[' :: q :: ("ab".data ++ q :: ']' :: tail) ∧
      ("ab".data : List Char) ≠ [] ∧
      (∀ ch ∈ ("ab".data : List Char), ¬ ch = '\'' ∧ ¬ ch = '"') ∧
      matchCallTail tail = some (g, rest) ∧
      ("x".data : List Char) = jsTrim g ∧
      (10 : Nat) = 0 + ((("m['ab'](x)".data).drop 0).length - rest.length) :=
  findTranslationCalls_nested_sound "m['ab'](x)".data
    ⟨"ab".data, "x".data, 0, 10, .nested⟩ (by decide) rfl

/-- Claim C9 — counterexample.  The claim states the captured argument
text equals, character for character, the raw text between the call's
parentheses.  In `m.k( a )` the raw text between the parentheses is
`" a "`, but the regex's leading whitespace group and the `.trim()` call
produce `params = "a"`. -/
theorem params_trim_counterexample :
    findTranslationCalls "m.k( a )".data = [⟨"k".data, "a".data, 0, 8, .flat⟩] ∧
    ("m.k( a )".data.drop 4).take 3 = " a ".data ∧
    "a".data ≠ " a ".data := by
  decide

/-- Claim C9 — amended.  For every matched call site (of either form),
the text at the call site contains an opening parenthesis, the match ends
exactly at the first closing parenthesis after it, and the call's
`params` equals the raw text between those two parentheses *with leading
and trailing JavaScript whitespace removed* (the regex absorbs leading
whitespace and the scanner applies `.trim()`). -/
theorem findTranslationCalls_params_trimmed (text : List Char) (c : TranslationCall)
    (hmem : c ∈ findTranslationCalls text) :
    ∃ d1 mid rest : List Char,
      text.drop c.start = d1 ++ '(' :: (mid ++ ')' :: rest) ∧
      (∀ ch ∈ mid, ¬ ch = ')') ∧
      c.params = jsTrim mid ∧
      c.endPos = c.start + d1.length + 1 + mid.length + 1 := by
  unfold findTranslationCalls at hmem
  rw [mem_sortByStart, List.mem_append] at hmem
  rcases hmem with hmem | hmem
  · obtain ⟨-, tail, g, rest, hdec, -, htail, hparams, hend⟩ :=
      scanFlatFuel_sound text.length false 0 text c hmem
    have hdec' : text.drop c.start = ('m' :: '.' :: c.methodName) ++ tail := by
      rw [hdec]
      simp
    exact paramsShape_of_tail hdec' htail hparams hend
  · obtain ⟨q, tail, g, rest, -, hdec, -, -, htail, hparams, hend⟩ :=
      (scanNestedFuel_sound text.length false 0 text c hmem).2
    have hdec' : text.drop c.start =
        ('m' :: '[' :: q :: (c.methodName ++ [q, ']'])) ++ tail := by
      rw [hdec]
      simp
    exact paramsShape_of_tail hdec' htail hparams hend

/-- Claim C9 — witness for `findTranslationCalls_params_trimmed`. -/
theorem findTranslationCalls_params_trimmed_witness :
    ∃ d1 mid rest : List Char,
      ("m.k( a )".data).drop 0 = d1 ++ '(' :: (mid ++ ')' :: rest) ∧
      (∀ ch ∈ mid, ¬ ch = ')') ∧
      ("a".data : List Char) = jsTrim mid ∧
      (8 : Nat) = 0 + d1.length + 1 + mid.length + 1 :=
  findTranslationCalls_params_trimmed "m.k( a )".data
    ⟨"k".data, "a".data, 0, 8, .flat⟩ (by decide)

end ElementaryWatson
